import Mathlib

/-!
# Verification of the `openmodel` halfedge-mesh kernel

Shallow embedding of `src/openmodel/src/geometry/mesh.rs` (and the parts of
`primitives/vector.rs` / `primitives/xform.rs` the mesh kernel calls).

Modelling conventions:
* Rust `HashMap<usize, T>` is modelled as an association list with insert-replace
  semantics (`Map`); iteration order of a `HashMap` is unspecified in Rust, and no
  claim below depends on it.
* `f64` scalars are modelled as exact rationals (`ℚ`); the kernel's comparisons and
  arithmetic are algebraic, so `ℚ` is the standard idealization.  Square roots and
  trigonometric functions (which only produce vertex *positions*, never connectivity)
  are abstracted as parameters where they occur.
-/

namespace OpenModel

/-- Association-list model of Rust's `HashMap<usize, α>`. -/
abbrev Map (α : Type) : Type := List (Nat × α)

namespace Map

/-- `HashMap::get`. -/
def find? {α : Type} : Map α → Nat → Option α
  | [], _ => none
  | (k', v) :: rest, k => if k = k' then some v else find? rest k

/-- `HashMap::contains_key`. -/
def contains {α : Type} (m : Map α) (k : Nat) : Bool :=
  (m.find? k).isSome

/-- `HashMap::insert`: replaces the value if the key is present. -/
def insert {α : Type} : Map α → Nat → α → Map α
  | [], k, v => [(k, v)]
  | (k', v') :: rest, k, v =>
      if k = k' then (k, v) :: rest else (k', v') :: insert rest k v

/-- `HashMap::keys`. -/
def keys {α : Type} (m : Map α) : List Nat :=
  m.map Prod.fst

end Map

/-- `geometry/point.rs`: a 3D point (coordinates idealized as `ℚ`). -/
structure Point where
  x : ℚ
  y : ℚ
  z : ℚ
  deriving DecidableEq, Repr

/-- `primitives/vector.rs`: a 3D vector. -/
structure Vector where
  x : ℚ
  y : ℚ
  z : ℚ
  deriving DecidableEq, Repr

namespace Vector

/-- `Vector::cross`. -/
def cross (a b : Vector) : Vector :=
  { x := a.y * b.z - a.z * b.y
    y := a.z * b.x - a.x * b.z
    z := a.x * b.y - a.y * b.x }

/-- `Vector::length_squared`. -/
def length_squared (a : Vector) : ℚ :=
  a.x * a.x + a.y * a.y + a.z * a.z

/-- `Vector::unitize` — normalizes in place, returning `false` (and leaving the
vector unchanged) when `length_squared < 1e-10`.  The square root used in the
success branch is irrational in general, so it is abstracted as the parameter
`sq` (intended: `sq q` is the square root of `q`); no claim below depends on the
value of `sq`.  The Lean version is state-passing: it returns the flag and the
updated vector. -/
def unitize (sq : ℚ → ℚ) (a : Vector) : Bool × Vector :=
  if a.length_squared < 1 / 10 ^ 10 then
    (false, a)
  else
    let length := sq a.length_squared
    (true, { x := a.x / length, y := a.y / length, z := a.z / length })

end Vector

/-- `VertexData`: position plus a string-keyed attribute map. -/
structure VertexData where
  x : ℚ
  y : ℚ
  z : ℚ
  attributes : List (String × ℚ)
  deriving DecidableEq, Repr

/-- `VertexData::new`. -/
def VertexData.new (point : Point) : VertexData :=
  { x := point.x, y := point.y, z := point.z, attributes := [] }

/-- The halfedge mesh of `geometry/mesh.rs`.  The `data` field (uuid/name) is an
external collaborator and is omitted. -/
structure Mesh where
  halfedge : Map (Map (Option Nat))
  vertex : Map VertexData
  face : Map (List Nat)
  facedata : Map (List (String × ℚ))
  edgedata : List ((Nat × Nat) × List (String × ℚ))
  default_vertex_attributes : List (String × ℚ)
  default_face_attributes : List (String × ℚ)
  default_edge_attributes : List (String × ℚ)
  max_vertex : Nat
  max_face : Nat
  deriving DecidableEq, Repr

namespace Mesh

/-- `Mesh::new`. -/
def new : Mesh :=
  { halfedge := []
    vertex := []
    face := []
    facedata := []
    edgedata := []
    default_vertex_attributes := [("x", 0), ("y", 0), ("z", 0)]
    default_face_attributes := []
    default_edge_attributes := []
    max_vertex := 0
    max_face := 0 }

/-- `Mesh::is_empty`. -/
def is_empty (m : Mesh) : Bool :=
  m.vertex.isEmpty && m.face.isEmpty

/-- `Mesh::number_of_vertices`. -/
def number_of_vertices (m : Mesh) : Nat :=
  m.vertex.length

/-- `Mesh::number_of_faces`. -/
def number_of_faces (m : Mesh) : Nat :=
  m.face.length

/-- The normalized undirected key used by `Mesh::number_of_edges`:
`if u < v { (u, v) } else { (v, u) }`. -/
def normalizeEdge (u v : Nat) : Nat × Nat :=
  if u < v then (u, v) else (v, u)

/-- All normalized pairs produced by iterating the halfedge map
(`for u in halfedge.keys { for v in halfedge[u].keys { ... } }`). -/
def edgeKeyList (m : Mesh) : List (Nat × Nat) :=
  m.halfedge.flatMap fun p => p.2.map fun q => normalizeEdge p.1 q.1

/-- `Mesh::number_of_edges`: counts normalized pairs not seen before
(the Rust code uses a `HashSet` called `seen`). -/
def number_of_edges (m : Mesh) : Nat :=
  ((edgeKeyList m).foldl
    (fun acc e => if e ∈ acc.1 then acc else (e :: acc.1, acc.2 + 1))
    ([], 0)).2

/-- `Mesh::euler`: `V - E + F`. -/
def euler (m : Mesh) : Int :=
  (m.number_of_vertices : Int) - (m.number_of_edges : Int) + (m.number_of_faces : Int)

/-- `Mesh::add_vertex`.  State-passing version of the Rust method; returns the
vertex key and the updated mesh. -/
def add_vertex (m : Mesh) (position : Point) (key : Option Nat) : Nat × Mesh :=
  let p := match key with
    | none => (m.max_vertex + 1, m.max_vertex + 1)
    | some k => (k, m.max_vertex)
  let vertex_key := p.1
  let max1 := p.2
  let max2 := if max1 ≤ vertex_key then vertex_key + 1 else max1
  let halfedge2 :=
    if m.halfedge.contains vertex_key then m.halfedge else m.halfedge.insert vertex_key []
  (vertex_key,
    { m with
      max_vertex := max2
      vertex := m.vertex.insert vertex_key (VertexData.new position)
      halfedge := halfedge2 })

end Mesh

/-- The duplicate-vertex check of `Mesh::add_face` (a `HashSet` insert loop in
Rust); `true` iff some vertex key occurs twice in the list. -/
def hasDuplicate : List Nat → Bool
  | [] => false
  | a :: rest => rest.contains a || hasDuplicate rest

/-- The consecutive cyclic pairs `(vertices[i], vertices[(i+1) % n])` visited by
the halfedge loop of `Mesh::add_face`: auxiliary walk closing back at `first`. -/
def cycPairsAux (first : Nat) : List Nat → List (Nat × Nat)
  | [] => []
  | [a] => [(a, first)]
  | a :: b :: rest => (a, b) :: cycPairsAux first (b :: rest)

/-- The consecutive cyclic pairs of a vertex list. -/
def cycPairs : List Nat → List (Nat × Nat)
  | [] => []
  | a :: rest => cycPairsAux a (a :: rest)

/-- `self.halfedge.entry(k).or_insert_with(HashMap::new)`: add an empty row for
`k` if absent. -/
def ensureRow (h : Map (Map (Option Nat))) (k : Nat) : Map (Map (Option Nat)) :=
  if h.contains k then h else h.insert k []

/-- The halfedge row of a vertex (`self.halfedge.get(&u).unwrap()`; total via a
default empty row, which the code guarantees is never hit because rows were just
ensured). -/
def rowOf (h : Map (Map (Option Nat))) (u : Nat) : Map (Option Nat) :=
  (h.find? u).getD []

/-- One iteration of the halfedge-update loop in `Mesh::add_face`, for the pair
`(u, v)`: ensure rows for `u` and `v` exist, set `halfedge[u][v] = Some(face_key)`,
and set `halfedge[v][u] = None` if no entry `v → u` exists yet. -/
def heStep (face_key : Nat) (h : Map (Map (Option Nat))) (uv : Nat × Nat) :
    Map (Map (Option Nat)) :=
  let u := uv.1
  let v := uv.2
  let h2 := ensureRow (ensureRow h u) v
  let h3 := h2.insert u ((rowOf h2 u).insert v (some face_key))
  let hv := rowOf h3 v
  if hv.contains u then h3 else h3.insert v (hv.insert u none)

/-- The success branch of `Mesh::add_face` (after the three validation checks):
allocate the face key, bump the counter, insert the face, update the halfedge
map. -/
def add_face_checked (m : Mesh) (vertices : List Nat) (fkey : Option Nat) :
    Option Nat × Mesh :=
  let p := match fkey with
    | none => (m.max_face + 1, m.max_face + 1)
    | some k => (k, m.max_face)
  let face_key := p.1
  let max1 := p.2
  let max2 := if max1 ≤ face_key then face_key + 1 else max1
  let h := (cycPairs vertices).foldl (heStep face_key) m.halfedge
  (some face_key,
    { m with
      max_face := max2
      face := m.face.insert face_key vertices
      halfedge := h })

/-- `Mesh::add_face`.  State-passing version; returns the face key (or `none`
for invalid input) and the updated mesh. -/
def Mesh.add_face (m : Mesh) (vertices : List Nat) (fkey : Option Nat) :
    Option Nat × Mesh :=
  if vertices.length < 3 then (none, m)
  else if !(vertices.all fun v => m.vertex.contains v) then (none, m)
  else if hasDuplicate vertices then (none, m)
  else add_face_checked m vertices fkey

/-- Directed halfedge lookup `halfedge[u][v]`:
`some w` means an entry `u → v` exists with face reference `w`. -/
def lookup2 (h : Map (Map (Option Nat))) (u v : Nat) : Option (Option Nat) :=
  match h.find? u with
  | none => none
  | some inner => inner.find? v

/-! ## Basic lemmas about the `Map` model -/

theorem Map.find?_insert_self {α : Type} (m : Map α) (k : Nat) (v : α) :
    (m.insert k v).find? k = some v := by
  induction m with
  | nil => simp [Map.insert, Map.find?]
  | cons hd tl ih =>
      by_cases h : k = hd.1
      · simp [Map.insert, Map.find?, h]
      · simpa [Map.insert, Map.find?, h] using ih

theorem Map.find?_insert_ne {α : Type} (m : Map α) (k k' : Nat) (v : α) (h : k' ≠ k) :
    (m.insert k v).find? k' = m.find? k' := by
  induction m with
  | nil => simp [Map.insert, Map.find?, h]
  | cons hd tl ih =>
      by_cases hk : k = hd.1
      · subst hk
        simp [Map.insert, Map.find?, h]
      · by_cases hk' : k' = hd.1
        · simp [Map.insert, Map.find?, hk, hk']
        · simpa [Map.insert, Map.find?, hk, hk'] using ih

theorem Map.contains_eq_isSome {α : Type} (m : Map α) (k : Nat) :
    m.contains k = (m.find? k).isSome := rfl

theorem Map.contains_insert_self {α : Type} (m : Map α) (k : Nat) (v : α) :
    (m.insert k v).contains k = true := by
  simp [Map.contains, Map.find?_insert_self]

theorem Map.contains_insert_mono {α : Type} (m : Map α) (k u : Nat) (v : α)
    (h : m.contains u = true) : (m.insert k v).contains u = true := by
  by_cases hu : u = k
  · subst hu; exact m.contains_insert_self u v
  · simpa [Map.contains, Map.find?_insert_ne m k u v hu] using h

theorem Map.keys_insert {α : Type} (m : Map α) (k : Nat) (v : α) :
    (m.insert k v).keys = if m.contains k then m.keys else m.keys ++ [k] := by
  induction m with
  | nil => simp [Map.insert, Map.keys, Map.contains, Map.find?]
  | cons hd tl ih =>
      by_cases h : k = hd.1
      · simp [Map.insert, Map.keys, Map.contains, Map.find?, h]
      · simp only [Map.insert, Map.keys, Map.contains, Map.find?, h, if_false,
          List.map_cons]
        rw [show Map.keys (Map.insert tl k v) = List.map Prod.fst (Map.insert tl k v) from rfl]
          at ih
        simp [ih, Map.contains, Map.keys]
        split <;> simp

/-- `hasDuplicate` decides (the negation of) `List.Nodup`. -/
theorem hasDuplicate_eq_false_iff {l : List Nat} : hasDuplicate l = false ↔ l.Nodup := by
  induction l with
  | nil => simp [hasDuplicate]
  | cons a rest ih =>
      simp [hasDuplicate, List.nodup_cons, ih, List.elem_iff]

/-! ## C1: invalid input to `add_face` returns `None` and leaves the mesh unchanged -/

/-- **C1.** For every mesh and every vertex-key list that has fewer than 3 entries,
contains a key absent from the vertex map, or contains a repeated key,
`add_face` returns `None` and the mesh is completely unchanged (the result state
is literally the input mesh: vertex, face and halfedge maps and both key
counters included). -/
theorem add_face_invalid_is_noop (m : Mesh) (l : List Nat) (fk : Option Nat)
    (h : l.length < 3 ∨ (∃ v ∈ l, m.vertex.contains v = false) ∨ ¬ l.Nodup) :
    m.add_face l fk = (none, m) := by
  unfold Mesh.add_face
  by_cases h1 : l.length < 3
  · simp [h1]
  · simp only [h1, if_false]
    by_cases h2 : (l.all fun v => m.vertex.contains v) = true
    · simp only [h2, Bool.not_true, Bool.false_eq_true, if_false]
      by_cases h3 : hasDuplicate l = true
      · simp [h3]
      · exfalso
        rcases h with hlen | ⟨v, hv, hcon⟩ | hnd
        · exact h1 hlen
        · have := List.all_eq_true.mp h2 v hv
          simp [this] at hcon
        · exact hnd (hasDuplicate_eq_false_iff.mp (by simpa using h3))
    · simp [h2]

/-- Witness for C1 at a concrete input: the empty key list is rejected on the
empty mesh and the mesh is returned unchanged. -/
theorem add_face_invalid_is_noop_witness :
    ([] : List Nat).length < 3 ∧ Mesh.new.add_face [] none = (none, Mesh.new) :=
  ⟨by decide, add_face_invalid_is_noop Mesh.new [] none (Or.inl (by decide))⟩

/-! ## Effect lemmas for `add_vertex` / `add_face` -/

/-- If all three validation checks pass, `add_face` takes the success branch. -/
theorem add_face_valid_eq (m : Mesh) (l : List Nat) (fk : Option Nat)
    (h3 : 3 ≤ l.length) (hex : ∀ v ∈ l, m.vertex.contains v = true)
    (hnd : l.Nodup) : m.add_face l fk = add_face_checked m l fk := by
  have c1 : ¬ l.length < 3 := by omega
  have c2 : (l.all fun v => m.vertex.contains v) = true := List.all_eq_true.mpr hex
  have c3 : hasDuplicate l = false := hasDuplicate_eq_false_iff.mpr hnd
  simp [Mesh.add_face, c1, c2, c3]

theorem add_face_checked_vertex_eq (m : Mesh) (l : List Nat) (fk : Option Nat) :
    (add_face_checked m l fk).2.vertex = m.vertex := by
  cases fk <;> rfl

theorem add_face_vertex_eq (m : Mesh) (l : List Nat) (fk : Option Nat) :
    (m.add_face l fk).2.vertex = m.vertex := by
  unfold Mesh.add_face
  split
  · rfl
  split
  · rfl
  split
  · rfl
  · exact add_face_checked_vertex_eq m l fk

theorem add_face_max_vertex_eq (m : Mesh) (l : List Nat) (fk : Option Nat) :
    (m.add_face l fk).2.max_vertex = m.max_vertex := by
  unfold Mesh.add_face
  split
  · rfl
  split
  · rfl
  split
  · rfl
  · cases fk <;> rfl

theorem add_vertex_max_face_eq (m : Mesh) (p : Point) (k : Option Nat) :
    (m.add_vertex p k).2.max_face = m.max_face := by
  unfold Mesh.add_vertex
  rfl

theorem contains_ensureRow_mono (h : Map (Map (Option Nat))) (k w : Nat)
    (hw : h.contains w = true) : (ensureRow h k).contains w = true := by
  unfold ensureRow
  split
  · exact hw
  · exact Map.contains_insert_mono _ _ _ _ hw

theorem contains_heStep_mono (f : Nat) (h : Map (Map (Option Nat))) (uv : Nat × Nat)
    (w : Nat) (hw : h.contains w = true) : (heStep f h uv).contains w = true := by
  unfold heStep
  dsimp only
  have c2 := contains_ensureRow_mono (ensureRow h uv.1) uv.2 w
    (contains_ensureRow_mono h uv.1 w hw)
  split
  · exact Map.contains_insert_mono _ _ _ _ c2
  · exact Map.contains_insert_mono _ _ _ _ (Map.contains_insert_mono _ _ _ _ c2)

theorem contains_foldl_heStep_mono (f : Nat) (ps : List (Nat × Nat))
    (h : Map (Map (Option Nat))) (w : Nat) (hw : h.contains w = true) :
    (ps.foldl (heStep f) h).contains w = true := by
  induction ps generalizing h with
  | nil => exact hw
  | cons p rest ih => exact ih (heStep f h p) (contains_heStep_mono f h p w hw)

theorem add_face_halfedge_contains_mono (m : Mesh) (l : List Nat) (fk : Option Nat)
    (w : Nat) (hw : m.halfedge.contains w = true) :
    (m.add_face l fk).2.halfedge.contains w = true := by
  unfold Mesh.add_face
  split
  · exact hw
  split
  · exact hw
  split
  · exact hw
  · exact contains_foldl_heStep_mono _ _ _ _ hw

theorem Map.contains_insert_iff {α : Type} (m : Map α) (k k' : Nat) (v : α) :
    (m.insert k v).contains k' = true ↔ k' = k ∨ m.contains k' = true := by
  by_cases h : k' = k
  · subst h
    simp [Map.contains_insert_self]
  · simp [Map.contains, Map.find?_insert_ne m k k' v h, h]

/-! ## Reachable mesh states -/

/-- The meshes reachable from `Mesh::new` by any sequence of `add_vertex` and
`add_face` calls (with or without explicit keys). -/
inductive Reachable : Mesh → Prop where
  | new : Reachable Mesh.new
  | add_vertex (m : Mesh) (p : Point) (k : Option Nat) :
      Reachable m → Reachable (m.add_vertex p k).2
  | add_face (m : Mesh) (l : List Nat) (k : Option Nat) :
      Reachable m → Reachable (m.add_face l k).2

/-- Structural invariant: in every reachable mesh, every vertex key has a
halfedge row. -/
theorem reachable_vertex_contains_halfedge {m : Mesh} (hm : Reachable m) :
    ∀ k, m.vertex.contains k = true → m.halfedge.contains k = true := by
  induction hm with
  | new =>
      intro k hk
      simp [Mesh.new, Map.contains, Map.find?] at hk
  | add_vertex m p key hr ih =>
      intro k hk
      unfold Mesh.add_vertex at hk ⊢
      dsimp only at hk ⊢
      rcases (Map.contains_insert_iff m.vertex _ k _).mp hk with hke | hold
      · subst hke
        split
        · assumption
        · exact Map.contains_insert_self _ _ _
      · have := ih k hold
        split
        · exact this
        · exact Map.contains_insert_mono _ _ _ _ this
  | add_face m l fk hr ih =>
      intro k hk
      rw [add_face_vertex_eq] at hk
      exact add_face_halfedge_contains_mono m l fk k (ih k hk)

/-! ## C10: `add_vertex` with an existing explicit key is a pure overwrite -/

/-- **C10.** For every (reachable) mesh and every explicit key naming an existing
vertex, `add_vertex(position, Some(key))` replaces only that vertex's position
and attribute map; the face map, every halfedge entry (including the
overwritten vertex's adjacency), every other vertex, and the face-key counter
are unchanged. -/
theorem add_vertex_existing_key_overwrites_only (m : Mesh) (p : Point) (k : Nat)
    (hm : Reachable m) (hk : m.vertex.contains k = true) :
    (m.add_vertex p (some k)).1 = k ∧
    (m.add_vertex p (some k)).2.vertex.find? k = some (VertexData.new p) ∧
    (∀ j, j ≠ k → (m.add_vertex p (some k)).2.vertex.find? j = m.vertex.find? j) ∧
    (m.add_vertex p (some k)).2.face = m.face ∧
    (m.add_vertex p (some k)).2.halfedge = m.halfedge ∧
    (m.add_vertex p (some k)).2.max_face = m.max_face := by
  have hh : m.halfedge.contains k = true := reachable_vertex_contains_halfedge hm k hk
  unfold Mesh.add_vertex
  dsimp only
  refine ⟨rfl, Map.find?_insert_self _ _ _, ?_, rfl, ?_, rfl⟩
  · intro j hj
    exact Map.find?_insert_ne _ _ _ _ hj
  · simp [hh]

/-- A small concrete reachable mesh used by witnesses: one vertex at explicit
key 2. -/
def sampleMesh1 : Mesh := (Mesh.new.add_vertex ⟨0, 0, 0⟩ (some 2)).2

theorem sampleMesh1_reachable : Reachable sampleMesh1 :=
  Reachable.add_vertex Mesh.new ⟨0, 0, 0⟩ (some 2) Reachable.new

/-- Witness for C10 at a concrete input. -/
theorem add_vertex_existing_key_overwrites_only_witness :
    sampleMesh1.vertex.contains 2 = true ∧
    (sampleMesh1.add_vertex ⟨5, 5, 5⟩ (some 2)).2.halfedge = sampleMesh1.halfedge ∧
    (sampleMesh1.add_vertex ⟨5, 5, 5⟩ (some 2)).2.vertex.find? 2 =
      some (VertexData.new ⟨5, 5, 5⟩) :=
  ⟨by decide,
   (add_vertex_existing_key_overwrites_only sampleMesh1 ⟨5, 5, 5⟩ 2
      sampleMesh1_reachable (by decide)).2.2.2.2.1,
   (add_vertex_existing_key_overwrites_only sampleMesh1 ⟨5, 5, 5⟩ 2
      sampleMesh1_reachable (by decide)).2.1⟩

/-! ## C8: auto-generated keys strictly dominate all previously used keys -/

/-- A call in a mesh-construction trace. -/
inductive Op where
  | addV (p : Point) (k : Option Nat)
  | addF (l : List Nat) (k : Option Nat)

/-- Apply one call, discarding the returned key. -/
def applyOp (m : Mesh) : Op → Mesh
  | .addV p k => (m.add_vertex p k).2
  | .addF l k => (m.add_face l k).2

/-- Run a trace of calls from a given mesh. -/
def runFrom (m : Mesh) (ops : List Op) : Mesh :=
  ops.foldl applyOp m

/-- Run a trace of calls from the empty mesh. -/
def run (ops : List Op) : Mesh :=
  runFrom Mesh.new ops

/-- Every vertex key actually used (returned by `add_vertex`) along a trace. -/
def usedVKeysFrom : Mesh → List Op → List Nat
  | _, [] => []
  | m, Op.addV p k :: rest =>
      (m.add_vertex p k).1 :: usedVKeysFrom (applyOp m (Op.addV p k)) rest
  | m, Op.addF l k :: rest => usedVKeysFrom (applyOp m (Op.addF l k)) rest

/-- Every face key actually used (returned by a successful `add_face`) along a
trace. -/
def usedFKeysFrom : Mesh → List Op → List Nat
  | _, [] => []
  | m, Op.addV p k :: rest => usedFKeysFrom (applyOp m (Op.addV p k)) rest
  | m, Op.addF l k :: rest =>
      (match (m.add_face l k).1 with
        | some fk => [fk]
        | none => []) ++ usedFKeysFrom (applyOp m (Op.addF l k)) rest

theorem add_vertex_key_lt_max (m : Mesh) (p : Point) (k : Option Nat) :
    (m.add_vertex p k).1 < (m.add_vertex p k).2.max_vertex := by
  unfold Mesh.add_vertex
  cases k <;> dsimp only <;> split <;> omega

theorem add_vertex_max_vertex_mono (m : Mesh) (p : Point) (k : Option Nat) :
    m.max_vertex ≤ (m.add_vertex p k).2.max_vertex := by
  unfold Mesh.add_vertex
  cases k <;> dsimp only <;> split <;> omega

theorem add_face_checked_key_lt_max (m : Mesh) (l : List Nat) (fk : Option Nat)
    (f : Nat) (hf : (add_face_checked m l fk).1 = some f) :
    f < (add_face_checked m l fk).2.max_face := by
  cases fk with
  | none =>
      have hf' : m.max_face + 1 = f := Option.some_inj.mp hf
      subst hf'
      show m.max_face + 1 < if m.max_face + 1 ≤ m.max_face + 1 then m.max_face + 1 + 1
        else m.max_face + 1
      simp
  | some k =>
      have hf' : k = f := Option.some_inj.mp hf
      subst hf'
      show k < if m.max_face ≤ k then k + 1 else m.max_face
      split <;> omega

theorem add_face_key_lt_max (m : Mesh) (l : List Nat) (fk : Option Nat) (f : Nat)
    (hf : (m.add_face l fk).1 = some f) : f < (m.add_face l fk).2.max_face := by
  unfold Mesh.add_face at hf ⊢
  by_cases c1 : l.length < 3
  · rw [if_pos c1] at hf; exact absurd hf (by simp)
  rw [if_neg c1] at hf ⊢
  by_cases c2 : (!l.all fun v => m.vertex.contains v) = true
  · rw [if_pos c2] at hf; exact absurd hf (by simp)
  rw [if_neg c2] at hf ⊢
  by_cases c3 : hasDuplicate l = true
  · rw [if_pos c3] at hf; exact absurd hf (by simp)
  rw [if_neg c3] at hf ⊢
  exact add_face_checked_key_lt_max m l fk f hf

theorem add_face_max_face_mono (m : Mesh) (l : List Nat) (fk : Option Nat) :
    m.max_face ≤ (m.add_face l fk).2.max_face := by
  unfold Mesh.add_face
  split
  · exact le_refl _
  split
  · exact le_refl _
  split
  · exact le_refl _
  · cases fk with
    | none =>
        show m.max_face ≤ if m.max_face + 1 ≤ m.max_face + 1 then m.max_face + 1 + 1
          else m.max_face + 1
        split <;> omega
    | some k =>
        show m.max_face ≤ if m.max_face ≤ k then k + 1 else m.max_face
        split <;> omega

theorem add_face_auto_key (m : Mesh) (l : List Nat) (f : Nat)
    (hf : (m.add_face l none).1 = some f) : f = m.max_face + 1 := by
  unfold Mesh.add_face at hf
  split at hf
  · exact absurd hf (by simp)
  split at hf
  · exact absurd hf (by simp)
  split at hf
  · exact absurd hf (by simp)
  · exact (Option.some_inj.mp hf).symm

theorem runFrom_max_vertex_mono (m : Mesh) (ops : List Op) :
    m.max_vertex ≤ (runFrom m ops).max_vertex := by
  induction ops generalizing m with
  | nil => exact le_refl _
  | cons op rest ih =>
      refine le_trans ?_ (ih (applyOp m op))
      cases op with
      | addV p k => exact add_vertex_max_vertex_mono m p k
      | addF l k => exact le_of_eq (add_face_max_vertex_eq m l k).symm

theorem runFrom_max_face_mono (m : Mesh) (ops : List Op) :
    m.max_face ≤ (runFrom m ops).max_face := by
  induction ops generalizing m with
  | nil => exact le_refl _
  | cons op rest ih =>
      refine le_trans ?_ (ih (applyOp m op))
      cases op with
      | addV p k => exact le_of_eq (add_vertex_max_face_eq m p k).symm
      | addF l k => exact add_face_max_face_mono m l k

theorem usedVKeysFrom_lt_max (m : Mesh) (ops : List Op) :
    ∀ k ∈ usedVKeysFrom m ops, k < (runFrom m ops).max_vertex := by
  induction ops generalizing m with
  | nil => intro k hk; simp [usedVKeysFrom] at hk
  | cons op rest ih =>
      intro k hk
      cases op with
      | addV p key =>
          rw [usedVKeysFrom] at hk
          rcases List.mem_cons.mp hk with hhd | htl
          · subst hhd
            calc (m.add_vertex p key).1 < (m.add_vertex p key).2.max_vertex :=
                  add_vertex_key_lt_max m p key
              _ ≤ (runFrom (applyOp m (Op.addV p key)) rest).max_vertex :=
                  runFrom_max_vertex_mono _ rest
          · exact ih (applyOp m (Op.addV p key)) k htl
      | addF l key =>
          rw [usedVKeysFrom] at hk
          exact ih (applyOp m (Op.addF l key)) k hk

theorem usedFKeysFrom_lt_max (m : Mesh) (ops : List Op) :
    ∀ k ∈ usedFKeysFrom m ops, k < (runFrom m ops).max_face := by
  induction ops generalizing m with
  | nil => intro k hk; simp [usedFKeysFrom] at hk
  | cons op rest ih =>
      intro k hk
      cases op with
      | addV p key =>
          rw [usedFKeysFrom] at hk
          exact ih (applyOp m (Op.addV p key)) k hk
      | addF l key =>
          rw [usedFKeysFrom] at hk
          rcases List.mem_append.mp hk with hhd | htl
          · rcases hres : (m.add_face l key).1 with _ | f
            · rw [hres] at hhd; simp at hhd
            · rw [hres] at hhd
              simp only [List.mem_singleton] at hhd
              subst hhd
              calc k < (m.add_face l key).2.max_face := add_face_key_lt_max m l key k hres
                _ ≤ (runFrom (applyOp m (Op.addF l key)) rest).max_face :=
                    runFrom_max_face_mono _ rest
          · exact ih (applyOp m (Op.addF l key)) k htl

/-- **C8.** Along every sequence of `add_vertex`/`add_face` calls (with or
without explicit keys) starting from the empty mesh, a freshly auto-generated
vertex key is strictly greater than every vertex key ever used before it, and a
freshly auto-generated face key is strictly greater than every face key ever
used before it. -/
theorem fresh_auto_keys_exceed_all_used (ops : List Op) (p : Point) (l : List Nat) :
    (∀ k ∈ usedVKeysFrom Mesh.new ops, k < ((run ops).add_vertex p none).1) ∧
    (∀ f, ((run ops).add_face l none).1 = some f →
      ∀ k ∈ usedFKeysFrom Mesh.new ops, k < f) := by
  constructor
  · intro k hk
    have h1 := usedVKeysFrom_lt_max Mesh.new ops k hk
    have h2 : ((run ops).add_vertex p none).1 = (run ops).max_vertex + 1 := rfl
    rw [h2]
    exact Nat.lt_succ_of_lt h1
  · intro f hf k hk
    have h1 := usedFKeysFrom_lt_max Mesh.new ops k hk
    rw [add_face_auto_key _ _ _ hf]
    exact Nat.lt_succ_of_lt h1

/-- A small concrete trace for the C8 witness: one explicit vertex key 10, one
explicit face key 20 on a valid triangle. -/
def sampleOps : List Op :=
  [Op.addV ⟨0, 0, 0⟩ (some 10), Op.addV ⟨1, 0, 0⟩ none, Op.addV ⟨0, 1, 0⟩ none,
   Op.addF [10, 12, 14] (some 20)]

/-- Witness for C8 at a concrete trace: the next auto vertex key exceeds the
explicitly used key 10, and the next auto face key exceeds the explicitly used
key 20. -/
theorem fresh_auto_keys_exceed_all_used_witness :
    10 ∈ usedVKeysFrom Mesh.new sampleOps ∧
    10 < ((run sampleOps).add_vertex ⟨0, 0, 1⟩ none).1 ∧
    ((run sampleOps).add_face [10, 12, 14] none).1 = some 22 ∧
    20 ∈ usedFKeysFrom Mesh.new sampleOps ∧
    20 < 22 :=
  ⟨by decide, (fresh_auto_keys_exceed_all_used sampleOps ⟨0, 0, 1⟩ [10, 12, 14]).1 10
      (by decide),
   by decide,
   by decide,
   (fresh_auto_keys_exceed_all_used sampleOps ⟨0, 0, 1⟩ [10, 12, 14]).2 22 (by decide) 20
      (by decide)⟩

/-! ## Halfedge slot lemmas for the `add_face` update loop -/

theorem Map.find?_eq_none_of_contains_false {α : Type} (m : Map α) (k : Nat)
    (h : m.contains k = false) : m.find? k = none := by
  cases hm : m.find? k with
  | none => rfl
  | some v => rw [Map.contains, hm] at h; simp at h

theorem lookup2_eq (h : Map (Map (Option Nat))) (u v : Nat) :
    lookup2 h u v = (rowOf h u).find? v := by
  unfold lookup2 rowOf
  cases h.find? u with
  | none => simp [Map.find?]
  | some r => rfl

theorem rowOf_insert_self (h : Map (Map (Option Nat))) (u : Nat) (r : Map (Option Nat)) :
    rowOf (h.insert u r) u = r := by
  unfold rowOf
  rw [Map.find?_insert_self]
  rfl

theorem rowOf_insert_ne (h : Map (Map (Option Nat))) (u : Nat) (r : Map (Option Nat))
    (a : Nat) (hau : a ≠ u) : rowOf (h.insert u r) a = rowOf h a := by
  unfold rowOf
  rw [Map.find?_insert_ne _ _ _ _ hau]

theorem rowOf_ensureRow (h : Map (Map (Option Nat))) (k a : Nat) :
    rowOf (ensureRow h k) a = rowOf h a := by
  unfold ensureRow
  split
  · rfl
  · rename_i hc
    by_cases hak : a = k
    · subst hak
      rw [rowOf_insert_self]
      unfold rowOf
      rw [Map.find?_eq_none_of_contains_false _ _ (by simpa using hc)]
      rfl
    · exact rowOf_insert_ne h k [] a hak

theorem lookup2_heStep_self (f : Nat) (h : Map (Map (Option Nat))) (u v : Nat)
    (huv : u ≠ v) : lookup2 (heStep f h (u, v)) u v = some (some f) := by
  unfold heStep
  dsimp only
  set h2 := ensureRow (ensureRow h u) v with hh2
  set h3 := h2.insert u ((rowOf h2 u).insert v (some f)) with hh3
  have l3 : lookup2 h3 u v = some (some f) := by
    rw [lookup2_eq, hh3, rowOf_insert_self]
    exact Map.find?_insert_self _ _ _
  split
  · exact l3
  · rw [lookup2_eq, rowOf_insert_ne _ _ _ _ huv, ← lookup2_eq]
    exact l3

theorem lookup2_heStep_rev (f : Nat) (h : Map (Map (Option Nat))) (u v : Nat)
    (huv : u ≠ v) :
    lookup2 (heStep f h (u, v)) v u = some ((lookup2 h v u).getD none) := by
  unfold heStep
  dsimp only
  set h2 := ensureRow (ensureRow h u) v with hh2
  set h3 := h2.insert u ((rowOf h2 u).insert v (some f)) with hh3
  have hv3 : rowOf h3 v = rowOf h v := by
    rw [hh3, rowOf_insert_ne _ _ _ _ (Ne.symm huv), hh2, rowOf_ensureRow, rowOf_ensureRow]
  have l3 : lookup2 h3 v u = lookup2 h v u := by
    rw [lookup2_eq, hv3, ← lookup2_eq]
  rw [hv3]
  by_cases hc : (rowOf h v).contains u = true
  · rw [if_pos hc, l3]
    have hsome : (lookup2 h v u).isSome = true := by rw [lookup2_eq]; exact hc
    rcases Option.isSome_iff_exists.mp hsome with ⟨w, hw⟩
    rw [hw]
    rfl
  · rw [if_neg hc]
    have hnone : lookup2 h v u = none := by
      rw [lookup2_eq]
      exact Map.find?_eq_none_of_contains_false _ _ (by simpa using hc)
    rw [lookup2_eq, rowOf_insert_self, Map.find?_insert_self, hnone]
    rfl

theorem lookup2_heStep_other (f : Nat) (h : Map (Map (Option Nat))) (u v a b : Nat)
    (huv : u ≠ v) (h1 : (a, b) ≠ (u, v)) (h2 : (a, b) ≠ (v, u)) :
    lookup2 (heStep f h (u, v)) a b = lookup2 h a b := by
  unfold heStep
  dsimp only
  set H2 := ensureRow (ensureRow h u) v with hH2
  set H3 := H2.insert u ((rowOf H2 u).insert v (some f)) with hH3
  have hrowbase : ∀ c, rowOf H2 c = rowOf h c := fun c => by
    rw [hH2, rowOf_ensureRow, rowOf_ensureRow]
  by_cases hau : a = u
  · subst hau
    have hbv : b ≠ v := fun hb => h1 (by rw [hb])
    have l3 : lookup2 H3 a b = lookup2 h a b := by
      rw [lookup2_eq, hH3, rowOf_insert_self, Map.find?_insert_ne _ _ _ _ hbv,
        ← lookup2_eq]
      rw [lookup2_eq H2 a b, hrowbase a, ← lookup2_eq]
    split
    · exact l3
    · rw [lookup2_eq, rowOf_insert_ne _ _ _ _ huv, ← lookup2_eq]
      exact l3
  · by_cases hav : a = v
    · subst hav
      have hbu : b ≠ u := fun hb => h2 (by rw [hb])
      have hrow3 : rowOf H3 a = rowOf h a := by
        rw [hH3, rowOf_insert_ne _ _ _ _ (Ne.symm huv), hrowbase]
      have l3 : lookup2 H3 a b = lookup2 h a b := by
        rw [lookup2_eq, hrow3, ← lookup2_eq]
      split
      · exact l3
      · rw [lookup2_eq, rowOf_insert_self, Map.find?_insert_ne _ _ _ _ hbu, hrow3,
          ← lookup2_eq]
    · have l3 : lookup2 H3 a b = lookup2 h a b := by
        rw [lookup2_eq, hH3, rowOf_insert_ne _ _ _ _ hau, hrowbase, ← lookup2_eq]
      split
      · exact l3
      · rw [lookup2_eq, rowOf_insert_ne _ _ _ _ hav, ← lookup2_eq]
        exact l3

/-! ## Behaviour of the whole halfedge-update fold -/

theorem lookup2_foldl_other (f : Nat) (ps : List (Nat × Nat))
    (h : Map (Map (Option Nat))) (a b : Nat)
    (hdist : ∀ p ∈ ps, p.1 ≠ p.2) (hab : (a, b) ∉ ps) (hba : (b, a) ∉ ps) :
    lookup2 (ps.foldl (heStep f) h) a b = lookup2 h a b := by
  induction ps generalizing h with
  | nil => rfl
  | cons p rest ih =>
      rcases p with ⟨x, y⟩
      have hxy : x ≠ y := hdist (x, y) (List.mem_cons_self _ _)
      have e1 : (a, b) ≠ (x, y) := fun hh => hab (hh ▸ List.mem_cons_self _ _)
      have e2 : (a, b) ≠ (y, x) := by
        intro hh
        apply hba
        have hax : a = y := congrArg Prod.fst hh
        have hbx : b = x := congrArg Prod.snd hh
        rw [hax, hbx]
        exact List.mem_cons_self _ _
      rw [List.foldl_cons,
        ih (heStep f h (x, y)) (fun q hq => hdist q (List.mem_cons_of_mem _ hq))
          (fun hq => hab (List.mem_cons_of_mem _ hq))
          (fun hq => hba (List.mem_cons_of_mem _ hq)),
        lookup2_heStep_other f h x y a b hxy e1 e2]

theorem lookup2_foldl_self (f : Nat) (ps : List (Nat × Nat))
    (h : Map (Map (Option Nat))) (u v : Nat)
    (hdist : ∀ p ∈ ps, p.1 ≠ p.2) (hnd : ps.Nodup)
    (hmem : (u, v) ∈ ps) (hrev : (v, u) ∉ ps) :
    lookup2 (ps.foldl (heStep f) h) u v = some (some f) := by
  induction ps generalizing h with
  | nil => simp at hmem
  | cons p rest ih =>
      rcases p with ⟨x, y⟩
      have hxy : x ≠ y := hdist (x, y) (List.mem_cons_self _ _)
      by_cases hp : (u, v) = (x, y)
      · have hux : u = x := congrArg Prod.fst hp
        have hvy : v = y := congrArg Prod.snd hp
        subst hux; subst hvy
        rw [List.foldl_cons,
          lookup2_foldl_other f rest (heStep f h (u, v)) u v
            (fun q hq => hdist q (List.mem_cons_of_mem _ hq))
            ((List.nodup_cons.mp hnd).1)
            (fun hq => hrev (List.mem_cons_of_mem _ hq)),
          lookup2_heStep_self f h u v hxy]
      · have hmem' : (u, v) ∈ rest := by
          rcases List.mem_cons.mp hmem with hh | hh
          · exact absurd hh hp
          · exact hh
        rw [List.foldl_cons]
        exact ih (heStep f h (x, y))
          (fun q hq => hdist q (List.mem_cons_of_mem _ hq))
          ((List.nodup_cons.mp hnd).2) hmem'
          (fun hq => hrev (List.mem_cons_of_mem _ hq))

theorem lookup2_foldl_rev (f : Nat) (ps : List (Nat × Nat))
    (h : Map (Map (Option Nat))) (u v : Nat)
    (hdist : ∀ p ∈ ps, p.1 ≠ p.2) (hnd : ps.Nodup)
    (hmem : (u, v) ∈ ps) (hrev : (v, u) ∉ ps) :
    lookup2 (ps.foldl (heStep f) h) v u = some ((lookup2 h v u).getD none) := by
  induction ps generalizing h with
  | nil => simp at hmem
  | cons p rest ih =>
      rcases p with ⟨x, y⟩
      have hxy : x ≠ y := hdist (x, y) (List.mem_cons_self _ _)
      by_cases hp : (u, v) = (x, y)
      · have hux : u = x := congrArg Prod.fst hp
        have hvy : v = y := congrArg Prod.snd hp
        subst hux; subst hvy
        rw [List.foldl_cons,
          lookup2_foldl_other f rest (heStep f h (u, v)) v u
            (fun q hq => hdist q (List.mem_cons_of_mem _ hq))
            (fun hq => hrev (List.mem_cons_of_mem _ hq))
            (by
              intro hq
              exact (List.nodup_cons.mp hnd).1 hq),
          lookup2_heStep_rev f h u v hxy]
      · have hmem' : (u, v) ∈ rest := by
          rcases List.mem_cons.mp hmem with hh | hh
          · exact absurd hh hp
          · exact hh
        have hstep : lookup2 (heStep f h (x, y)) v u = lookup2 h v u := by
          apply lookup2_heStep_other f h x y v u hxy
          · intro hh
            apply hrev
            have h1 : v = x := congrArg Prod.fst hh
            have h2 : u = y := congrArg Prod.snd hh
            rw [h1, h2]
            exact List.mem_cons_self _ _
          · intro hh
            apply hp
            have h1 : v = y := congrArg Prod.fst hh
            have h2 : u = x := congrArg Prod.snd hh
            rw [h1, h2]
        rw [List.foldl_cons,
          ih (heStep f h (x, y))
            (fun q hq => hdist q (List.mem_cons_of_mem _ hq))
            ((List.nodup_cons.mp hnd).2) hmem'
            (fun hq => hrev (List.mem_cons_of_mem _ hq)),
          hstep]

theorem lookup2_foldl_cover (f : Nat) (ps : List (Nat × Nat))
    (h : Map (Map (Option Nat))) (a b : Nat)
    (hdist : ∀ p ∈ ps, p.1 ≠ p.2) (hnd : ps.Nodup)
    (hfresh : ∀ x y, lookup2 h x y ≠ some (some f))
    (hres : lookup2 (ps.foldl (heStep f) h) a b = some (some f)) :
    (a, b) ∈ ps := by
  by_contra hab
  by_cases hba : (b, a) ∈ ps
  · rw [lookup2_foldl_rev f ps h b a hdist hnd hba hab] at hres
    have : lookup2 h a b = some (some f) := by
      cases hcase : lookup2 h a b with
      | none => rw [hcase] at hres; simp at hres
      | some w =>
          rw [hcase] at hres
          simp only [Option.getD_some, Option.some_inj] at hres
          rw [hres]
    exact hfresh a b this
  · rw [lookup2_foldl_other f ps h a b hdist hab hba] at hres
    exact hfresh a b hres

/-! ## Properties of the cyclic pair list -/

theorem cycPairsAux_map_fst (first : Nat) (a : Nat) (l : List Nat) :
    (cycPairsAux first (a :: l)).map Prod.fst = a :: l := by
  induction l generalizing a with
  | nil => rfl
  | cons b rest ih => simp only [cycPairsAux, List.map_cons, ih]

theorem cycPairsAux_map_snd (first : Nat) (a : Nat) (l : List Nat) :
    (cycPairsAux first (a :: l)).map Prod.snd = l ++ [first] := by
  induction l generalizing a with
  | nil => rfl
  | cons b rest ih => simp only [cycPairsAux, List.map_cons, ih, List.cons_append]

theorem cycPairs_eq_zip (l : List Nat) : cycPairs l = l.zip (l.rotate 1) := by
  cases l with
  | nil => rfl
  | cons a rest =>
      have hrot : (a :: rest).rotate 1 = rest ++ [a] := by
        rw [List.rotate_cons_succ, List.rotate_zero]
      rw [cycPairs, hrot]
      exact List.zip_of_prod (cycPairsAux_map_fst a a rest) (cycPairsAux_map_snd a a rest)

theorem mem_cycPairs_iff (l : List Nat) (u v : Nat) :
    (u, v) ∈ cycPairs l ↔
      ∃ i, i < l.length ∧ l.getD i 0 = u ∧ l.getD ((i + 1) % l.length) 0 = v := by
  rw [cycPairs_eq_zip]
  constructor
  · intro hm
    rcases List.mem_iff_getElem.mp hm with ⟨i, hi, hget⟩
    have hlen : (l.zip (l.rotate 1)).length = l.length := by
      simp [List.length_zip, List.length_rotate]
    rw [hlen] at hi
    have hi' : i < (l.rotate 1).length := by simpa [List.length_rotate] using hi
    rw [List.getElem_zip] at hget
    refine ⟨i, hi, ?_, ?_⟩
    · rw [List.getD_eq_getElem l 0 hi]
      exact congrArg Prod.fst hget
    · have hmod : (i + 1) % l.length < l.length :=
        Nat.mod_lt _ (by omega)
      rw [List.getD_eq_getElem l 0 hmod]
      have := congrArg Prod.snd hget
      dsimp at this
      rw [← this, List.getElem_rotate]
  · rintro ⟨i, hi, hu, hv⟩
    have hlen : (l.zip (l.rotate 1)).length = l.length := by
      simp [List.length_zip, List.length_rotate]
    apply List.mem_iff_getElem.mpr
    refine ⟨i, by rw [hlen]; exact hi, ?_⟩
    have hi' : i < (l.rotate 1).length := by simpa [List.length_rotate] using hi
    rw [List.getElem_zip]
    have hmod : (i + 1) % l.length < l.length := Nat.mod_lt _ (by omega)
    have h1 : l[i] = u := by rw [← List.getD_eq_getElem l 0 hi]; exact hu
    have h2 : (l.rotate 1)[i] = v := by
      rw [List.getElem_rotate, ← List.getD_eq_getElem l 0 hmod]
      exact hv
    rw [h1, h2]

theorem mod_succ_ne_self (i n : Nat) (hi : i < n) (h2 : 2 ≤ n) : (i + 1) % n ≠ i := by
  intro h
  rcases Nat.lt_or_ge (i + 1) n with hlt | hge
  · rw [Nat.mod_eq_of_lt hlt] at h
    omega
  · have heq : i + 1 = n := by omega
    rw [heq, Nat.mod_self] at h
    omega

theorem mod_two_ne_self (i n : Nat) (hi : i < n) (h3 : 3 ≤ n) : (i + 2) % n ≠ i := by
  intro h
  rcases Nat.lt_or_ge (i + 2) n with hlt | hge
  · rw [Nat.mod_eq_of_lt hlt] at h
    omega
  · have hlt2 : i + 2 - n < n := by omega
    rw [Nat.mod_eq_sub_mod hge, Nat.mod_eq_of_lt hlt2] at h
    omega

theorem mem_cycPairs_ne (l : List Nat) (u v : Nat) (hnd : l.Nodup)
    (h2 : 2 ≤ l.length) (hm : (u, v) ∈ cycPairs l) : u ≠ v := by
  rcases (mem_cycPairs_iff l u v).mp hm with ⟨i, hi, hu, hv⟩
  intro huv
  have hmod : (i + 1) % l.length < l.length := Nat.mod_lt _ (by omega)
  rw [List.getD_eq_getElem l 0 hi] at hu
  rw [List.getD_eq_getElem l 0 hmod] at hv
  have heq : l[(i + 1) % l.length] = l[i] := by rw [hu, hv, huv]
  have := (hnd.getElem_inj_iff).mp heq
  exact mod_succ_ne_self i l.length hi h2 this

theorem mem_cycPairs_not_rev (l : List Nat) (u v : Nat) (hnd : l.Nodup)
    (h3 : 3 ≤ l.length) (hm : (u, v) ∈ cycPairs l) : (v, u) ∉ cycPairs l := by
  intro hrev
  rcases (mem_cycPairs_iff l u v).mp hm with ⟨i, hi, hu, hv⟩
  rcases (mem_cycPairs_iff l v u).mp hrev with ⟨j, hj, hv', hu'⟩
  have hn0 : 0 < l.length := by omega
  have hmodi : (i + 1) % l.length < l.length := Nat.mod_lt _ hn0
  have hmodj : (j + 1) % l.length < l.length := Nat.mod_lt _ hn0
  rw [List.getD_eq_getElem l 0 hi] at hu
  rw [List.getD_eq_getElem l 0 hmodi] at hv
  rw [List.getD_eq_getElem l 0 hj] at hv'
  rw [List.getD_eq_getElem l 0 hmodj] at hu'
  have hji : j = (i + 1) % l.length := by
    have heq : l[j] = l[(i + 1) % l.length] := by rw [hv, hv']
    exact (hnd.getElem_inj_iff).mp heq
  have hij : i = (j + 1) % l.length := by
    have heq : l[i] = l[(j + 1) % l.length] := by rw [hu, hu']
    exact (hnd.getElem_inj_iff).mp heq
  have hcomp : (j + 1) % l.length = (i + 2) % l.length := by
    rw [hji, Nat.mod_add_mod]
  rw [hcomp] at hij
  exact mod_two_ne_self i l.length hi h3 hij.symm

theorem cycPairs_nodup (l : List Nat) (hnd : l.Nodup) : (cycPairs l).Nodup := by
  cases l with
  | nil => simp [cycPairs]
  | cons a rest =>
      have hfst : (cycPairs (a :: rest)).map Prod.fst = a :: rest :=
        cycPairsAux_map_fst a a rest
      apply List.Nodup.of_map Prod.fst
      rw [hfst]
      exact hnd

/-! ## C2: postconditions of a successful `add_face` -/

/-- The face key allocated by the success branch of `add_face`. -/
def fkeyOf (m : Mesh) (fk : Option Nat) : Nat :=
  match fk with
  | none => m.max_face + 1
  | some k => k

theorem add_face_checked_fst (m : Mesh) (l : List Nat) (fk : Option Nat) :
    (add_face_checked m l fk).1 = some (fkeyOf m fk) := by
  cases fk <;> rfl

theorem add_face_checked_face (m : Mesh) (l : List Nat) (fk : Option Nat) :
    (add_face_checked m l fk).2.face = m.face.insert (fkeyOf m fk) l := by
  cases fk <;> rfl

theorem add_face_checked_halfedge (m : Mesh) (l : List Nat) (fk : Option Nat) :
    (add_face_checked m l fk).2.halfedge
      = (cycPairs l).foldl (heStep (fkeyOf m fk)) m.halfedge := by
  cases fk <;> rfl

/-- **C2 (amended).** For every mesh and every valid vertex-key list, a
successful `add_face` returning `Some(f)` stores the list under `f` in the face
map and, for each consecutive cyclic pair `(u,v)` of the list, sets
`halfedge[u][v] = Some(f)`; the reverse direction `v→u` ends up `Some(None)`
exactly when no entry for `v→u` existed before the call, and keeps its previous
value otherwise.  Moreover, *provided the allocated face key is fresh* (no
existing halfedge entry already references it — which the original claim's
unrestricted wording omits, see the counterexample), every face-owning halfedge
`u→v = Some(f)` after the call is a consecutive cyclic pair of `face[f]`. -/
theorem add_face_success_spec (m : Mesh) (l : List Nat) (fk : Option Nat)
    (h3 : 3 ≤ l.length) (hex : ∀ v ∈ l, m.vertex.contains v = true)
    (hnd : l.Nodup) :
    ∃ f, (m.add_face l fk).1 = some f ∧
      (m.add_face l fk).2.face.find? f = some l ∧
      (∀ uv ∈ cycPairs l,
        lookup2 (m.add_face l fk).2.halfedge uv.1 uv.2 = some (some f)) ∧
      (∀ uv ∈ cycPairs l,
        lookup2 (m.add_face l fk).2.halfedge uv.2 uv.1
          = some ((lookup2 m.halfedge uv.2 uv.1).getD none)) ∧
      ((∀ a b, lookup2 m.halfedge a b ≠ some (some f)) →
        ∀ a b, lookup2 (m.add_face l fk).2.halfedge a b = some (some f) →
          (a, b) ∈ cycPairs l) := by
  rw [add_face_valid_eq m l fk h3 hex hnd]
  have hdist : ∀ p ∈ cycPairs l, p.1 ≠ p.2 := fun p hp =>
    mem_cycPairs_ne l p.1 p.2 hnd (by omega) (by simpa using hp)
  have hpnd : (cycPairs l).Nodup := cycPairs_nodup l hnd
  refine ⟨fkeyOf m fk, add_face_checked_fst m l fk, ?_, ?_, ?_, ?_⟩
  · rw [add_face_checked_face]
    exact Map.find?_insert_self _ _ _
  · intro uv hm
    rw [add_face_checked_halfedge]
    exact lookup2_foldl_self _ _ _ uv.1 uv.2 hdist hpnd (by simpa using hm)
      (mem_cycPairs_not_rev l uv.1 uv.2 hnd h3 (by simpa using hm))
  · intro uv hm
    rw [add_face_checked_halfedge]
    exact lookup2_foldl_rev _ _ _ uv.1 uv.2 hdist hpnd (by simpa using hm)
      (mem_cycPairs_not_rev l uv.1 uv.2 hnd h3 (by simpa using hm))
  · intro hfresh a b hres
    rw [add_face_checked_halfedge] at hres
    exact lookup2_foldl_cover _ _ _ a b hdist hpnd hfresh hres

/-- A triangle mesh with explicit vertex keys 1, 2, 3 (no faces yet), used by
the C2 witness. -/
def triMesh : Mesh :=
  (((Mesh.new.add_vertex ⟨0, 0, 0⟩ (some 1)).2.add_vertex ⟨1, 0, 0⟩ (some 2)).2.add_vertex
    ⟨0, 1, 0⟩ (some 3)).2

/-- Witness for the amended C2 at a concrete input. -/
theorem add_face_success_spec_witness :
    (3 ≤ [1, 2, 3].length ∧ (∀ v ∈ [1, 2, 3], triMesh.vertex.contains v = true) ∧
      [1, 2, 3].Nodup) ∧
    ∃ f, (triMesh.add_face [1, 2, 3] none).1 = some f ∧
      (triMesh.add_face [1, 2, 3] none).2.face.find? f = some [1, 2, 3] ∧
      (∀ uv ∈ cycPairs [1, 2, 3],
        lookup2 (triMesh.add_face [1, 2, 3] none).2.halfedge uv.1 uv.2 = some (some f)) ∧
      (∀ uv ∈ cycPairs [1, 2, 3],
        lookup2 (triMesh.add_face [1, 2, 3] none).2.halfedge uv.2 uv.1
          = some ((lookup2 triMesh.halfedge uv.2 uv.1).getD none)) ∧
      ((∀ a b, lookup2 triMesh.halfedge a b ≠ some (some f)) →
        ∀ a b, lookup2 (triMesh.add_face [1, 2, 3] none).2.halfedge a b = some (some f) →
          (a, b) ∈ cycPairs [1, 2, 3]) :=
  ⟨⟨by decide, by decide, by decide⟩,
   add_face_success_spec triMesh [1, 2, 3] none (by decide) (by decide) (by decide)⟩

/-- A mesh with six vertices (keys 1–6) and a face stored at explicit key 7 over
vertices `[1,2,3]`, used to exhibit the face-key-collision counterexample. -/
def collideMesh : Mesh :=
  ((((((Mesh.new.add_vertex ⟨0, 0, 0⟩ (some 1)).2.add_vertex ⟨1, 0, 0⟩ (some 2)).2.add_vertex
      ⟨0, 1, 0⟩ (some 3)).2.add_vertex ⟨0, 0, 1⟩ (some 4)).2.add_vertex
      ⟨1, 0, 1⟩ (some 5)).2.add_vertex ⟨0, 1, 1⟩ (some 6)).2.add_face [1, 2, 3] (some 7)
    |>.2

/-- **Counterexample to C2 as stated.** On a mesh that already has a face at
key 7 over `[1,2,3]`, a *successful* `add_face [4,5,6]` with explicit key 7
returns `Some 7`, yet afterwards the halfedge `1→2` still carries `Some 7`
while `face[7] = [4,5,6]` does not contain 1 immediately followed by 2 — the
claim's final clause (`every face-owning halfedge u→v = Some(f) has u
immediately followed cyclically by v in face[f]`) is violated. -/
theorem add_face_overwrite_breaks_adjacency :
    (collideMesh.add_face [4, 5, 6] (some 7)).1 = some 7 ∧
    lookup2 (collideMesh.add_face [4, 5, 6] (some 7)).2.halfedge 1 2 = some (some 7) ∧
    (collideMesh.add_face [4, 5, 6] (some 7)).2.face.find? 7 = some [4, 5, 6] ∧
    (1, 2) ∉ cycPairs [4, 5, 6] := by
  decide

/-! ## The ear-clipping triangulator (`earclip_triangulate` and helpers) -/

/-- 2D points (`[f64; 2]`, idealized as `ℚ × ℚ`). -/
abbrev P2 := ℚ × ℚ

/-- The `sign` helper of the point-in-triangle test. -/
def sign (p1 p2 p3 : P2) : ℚ :=
  (p1.1 - p3.1) * (p2.2 - p3.2) - (p2.1 - p3.1) * (p1.2 - p3.2)

/-- `point_in_triangle`: barycentric sign test (boundary counts as inside). -/
def point_in_triangle (p a b c : P2) : Bool :=
  let d1 := sign p a b
  let d2 := sign p b c
  let d3 := sign p c a
  let has_neg := decide (d1 < 0) || decide (d2 < 0) || decide (d3 < 0)
  let has_pos := decide (0 < d1) || decide (0 < d2) || decide (0 < d3)
  !(has_neg && has_pos)

/-- `is_ear`: the angle at `curr` is strictly convex and no other active vertex
lies inside (or on the boundary of) the candidate triangle. -/
def is_ear (points : List P2) (indices : List Nat) (prev curr next : Nat) : Bool :=
  let a := points.getD prev (0, 0)
  let b := points.getD curr (0, 0)
  let c := points.getD next (0, 0)
  let ab := (b.1 - a.1, b.2 - a.2)
  let bc := (c.1 - b.1, c.2 - b.2)
  let cross := ab.1 * bc.2 - ab.2 * bc.1
  if cross ≤ 0 then false
  else
    indices.all fun idx =>
      if idx ≠ prev ∧ idx ≠ curr ∧ idx ≠ next then
        !(point_in_triangle (points.getD idx (0, 0)) a b c)
      else true

/-- The `(prev, curr, next)` active-vertex triple scanned at position `i`. -/
def earData (indices : List Nat) (i : Nat) : Nat × Nat × Nat :=
  let prev_idx := if i = 0 then indices.length - 1 else i - 1
  let next_idx := (i + 1) % indices.length
  (indices.getD prev_idx 0, indices.getD i 0, indices.getD next_idx 0)

/-- The inner scan of the clipping loop: the first position `i` whose triple is
a valid ear. -/
def findEar (points : List P2) (indices : List Nat) : Option Nat :=
  (List.range indices.length).find? fun i =>
    let t := earData indices i
    is_ear points indices t.1 t.2.1 t.2.2

/-- The `while indices.len() > 3` loop of `earclip_triangulate`, with explicit
fuel standing for the unbounded iteration (C9 proves the fuel used by
`earclip_triangulate` is never exhausted: each pass removes a vertex or
errors). -/
def clipLoop (points : List P2) : Nat → List Nat → List (Nat × Nat × Nat) →
    Option (Except String (List (Nat × Nat × Nat)))
  | 0, _, _ => none
  | fuel + 1, indices, tris =>
      if 3 < indices.length then
        match findEar points indices with
        | none => some (Except.error "Unable to find valid ear for triangulation")
        | some i =>
            clipLoop points fuel (indices.eraseIdx i) (tris ++ [earData indices i])
      else
        some (Except.ok
          (if indices.length = 3 then
            tris ++ [(indices.getD 0 0, indices.getD 1 0, indices.getD 2 0)]
          else tris))

/-- One cyclic-walk summand of `compute_signed_area`. -/
def saStep (p0 p1 : P2) : ℚ :=
  (p1.1 - p0.1) * (p1.2 + p0.2)

/-- Cyclic walk over a 2D point list: apply `f` to each consecutive pair and to
the closing pair `(last, first)`. -/
def walkSum (f : P2 → P2 → ℚ) (first : P2) : P2 → List P2 → ℚ
  | c, [] => f c first
  | c, b :: rest => f c b + walkSum f first b rest

/-- `compute_signed_area`: `0.5 * Σ (x₊ − x)(y₊ + y)` over the cyclic edge walk
(positive under this convention means clockwise). -/
def compute_signed_area : List P2 → ℚ
  | [] => 0
  | p :: rest => walkSum saStep p p rest * (1 / 2)

/-- `earclip_triangulate`: winding-order correction, ear-clipping loop, and
index remapping back to the original order. -/
def earclip_triangulate (points : List P2) : Except String (List (Nat × Nat × Nat)) :=
  if points.length < 3 then Except.error "Polygon must have at least 3 vertices"
  else if points.length = 3 then Except.ok [(0, 1, 2)]
  else
    let signed_area := compute_signed_area points
    let was_reversed := 0 < signed_area
    let polygon_points := if was_reversed then points.reverse else points
    match clipLoop polygon_points polygon_points.length
        (List.range polygon_points.length) [] with
    | none => Except.error "fuel exhausted"
    | some (Except.error e) => Except.error e
    | some (Except.ok tris) =>
        Except.ok
          (if was_reversed then
            tris.map fun t =>
              (points.length - 1 - t.1, points.length - 1 - t.2.1,
                points.length - 1 - t.2.2)
          else tris)

/-! ## The polygon-soup builders -/

/-- `f64::round`: round half away from zero. -/
def rustRound (q : ℚ) : ℤ :=
  if 0 ≤ q then ⌊q + 1 / 2⌋ else -⌊-q + 1 / 2⌋

/-- Rust's `format!("{:.10}", v)` compared for string equality, modelled as the
integer of the value rounded at the 10th decimal place (the sign-of-zero
artifact of `-0.0` and the round-half-even tie rule of float formatting have no
counterpart over `ℚ`). -/
def fmt10 (q : ℚ) : ℤ :=
  rustRound (q * 10 ^ 10)

/-- The merge key of `Mesh::from_polygons`:
`format!("{:.10}_{:.10}_{:.10}", (x/p).round()*p, ...)`. -/
def fpKey (precision : ℚ) (pt : Point) : ℤ × ℤ × ℤ :=
  (fmt10 ((rustRound (pt.x / precision) : ℚ) * precision),
   fmt10 ((rustRound (pt.y / precision) : ℚ) * precision),
   fmt10 ((rustRound (pt.z / precision) : ℚ) * precision))

/-- Association-list lookup for merge keys (`HashMap<String, usize>::get`). -/
def alookup {κ : Type} [DecidableEq κ] : List (κ × Nat) → κ → Option Nat
  | [], _ => none
  | (k', v) :: rest, k => if k = k' then some v else alookup rest k

/-- One point of the `from_polygons` inner loop: reuse the merged vertex or add
a fresh one; append its key to the face list. -/
def fpAddPoint (precision : ℚ) (st : Mesh × List ((ℤ × ℤ × ℤ) × Nat) × List Nat)
    (pt : Point) : Mesh × List ((ℤ × ℤ × ℤ) × Nat) × List Nat :=
  let key := fpKey precision pt
  match alookup st.2.1 key with
  | some existing => (st.1, st.2.1, st.2.2 ++ [existing])
  | none =>
      let r := st.1.add_vertex pt none
      (r.2, (key, r.1) :: st.2.1, st.2.2 ++ [r.1])

/-- One polygon of the `from_polygons` outer loop. -/
def fpAddPolygon (precision : ℚ) (st : Mesh × List ((ℤ × ℤ × ℤ) × Nat))
    (polygon : List Point) : Mesh × List ((ℤ × ℤ × ℤ) × Nat) :=
  if polygon.length < 3 then st
  else
    let r := polygon.foldl (fpAddPoint precision) (st.1, st.2, [])
    if 3 ≤ r.2.2.length then ((r.1.add_face r.2.2 none).2, r.2.1)
    else (r.1, r.2.1)

/-- `Mesh::from_polygons` (no triangulation of n-gons). -/
def Mesh.from_polygons (polygons : List (List Point)) (precision : Option ℚ) : Mesh :=
  (polygons.foldl (fpAddPolygon (precision.getD (1 / 10 ^ 10))) (Mesh.new, [])).1

/-- Cyclic walk over a 3D point list (used by Newell's method). -/
def walkSumP (f : Point → Point → ℚ) (first : Point) : Point → List Point → ℚ
  | c, [] => f c first
  | c, b :: rest => f c b + walkSumP f first b rest

/-- The polygon normal by Newell's method (cyclic edge sum). -/
def newellNormal (polygon : List Point) : Vector :=
  match polygon with
  | [] => ⟨0, 0, 0⟩
  | p :: rest =>
      ⟨walkSumP (fun c n => (c.y - n.y) * (c.z + n.z)) p p rest,
       walkSumP (fun c n => (c.z - n.z) * (c.x + n.x)) p p rest,
       walkSumP (fun c n => (c.x - n.x) * (c.y + n.y)) p p rest⟩

/-- `project_polygon_to_2d`: drop the coordinate axis of the dominant component
of the Newell normal.  The source normalizes the normal when its length exceeds
`1e-10` (equivalently, squared length exceeds `1e-20`) and otherwise replaces
it by `(0,0,1)`; dividing by the positive length does not change the comparison
of absolute components that follows, so the model keeps the unnormalized vector
(its square root is irrational). -/
def project_polygon_to_2d (polygon : List Point) : List P2 :=
  if polygon.length < 3 then []
  else
    let nrm := newellNormal polygon
    let nrm2 := if (1 / 10 ^ 20 : ℚ) < nrm.length_squared then nrm else ⟨0, 0, 1⟩
    let ax := |nrm2.x|
    let ay := |nrm2.y|
    let az := |nrm2.z|
    if az ≥ ax ∧ az ≥ ay then polygon.map fun p => (p.x, p.y)
    else if ay ≥ ax ∧ ay ≥ az then polygon.map fun p => (p.x, p.z)
    else polygon.map fun p => (p.y, p.z)

/-- `i64::MIN` / `i64::MAX`: Rust's `as i64` on a finite float saturates. -/
def toI64 (z : ℤ) : ℤ :=
  max (-(2 ^ 63)) (min (2 ^ 63 - 1) z)

/-- The merge key of `Mesh::from_polygons_with_merge`:
`((x*factor).round() as i64, ..., ...)` with `factor = 1.0 / precision`. -/
def fpmKey (precision : ℚ) (pt : Point) : ℤ × ℤ × ℤ :=
  let factor := 1 / precision
  (toI64 (rustRound (pt.x * factor)), toI64 (rustRound (pt.y * factor)),
   toI64 (rustRound (pt.z * factor)))

/-- First pass of `from_polygons_with_merge`, one point: record the first
occurrence of each merge key. -/
def fpmCollectPoint (precision : ℚ)
    (st : List ((ℤ × ℤ × ℤ) × Nat) × List Point) (pt : Point) :
    List ((ℤ × ℤ × ℤ) × Nat) × List Point :=
  let key := fpmKey precision pt
  match alookup st.1 key with
  | some _ => st
  | none => ((key, st.2.length) :: st.1, st.2 ++ [pt])

/-- First pass of `from_polygons_with_merge` over all polygons. -/
def fpmCollect (precision : ℚ) (polygons : List (List Point)) :
    List ((ℤ × ℤ × ℤ) × Nat) × List Point :=
  polygons.foldl (fun st poly => poly.foldl (fpmCollectPoint precision) st) ([], [])

/-- Second pass: the mesh vertex keys of one polygon
(`mesh_vertex_keys[vertex_map[point_key(point)]]`). -/
def fpmFaceVertices (precision : ℚ) (vmap : List ((ℤ × ℤ × ℤ) × Nat))
    (mkeys : List Nat) (polygon : List Point) : List Nat :=
  polygon.map fun pt => mkeys.getD ((alookup vmap (fpmKey precision pt)).getD 0) 0

/-- Second pass of `from_polygons_with_merge`, one polygon: triangles are added
directly; larger polygons are projected to 2D and ear-clipped, with a vertex-0
fan as fallback when triangulation fails. -/
def fpmAddFace (precision : ℚ) (vmap : List ((ℤ × ℤ × ℤ) × Nat)) (mkeys : List Nat)
    (mesh : Mesh) (polygon : List Point) : Mesh :=
  if polygon.length < 3 then mesh
  else
    let face_vertices := fpmFaceVertices precision vmap mkeys polygon
    if polygon.length = 3 then (mesh.add_face face_vertices none).2
    else
      let points_2d := project_polygon_to_2d polygon
      match earclip_triangulate points_2d with
      | Except.ok triangles =>
          triangles.foldl
            (fun acc t =>
              (acc.add_face
                [face_vertices.getD t.1 0, face_vertices.getD t.2.1 0,
                  face_vertices.getD t.2.2 0] none).2)
            mesh
      | Except.error _ =>
          (List.range' 1 (polygon.length - 2)).foldl
            (fun acc i =>
              (acc.add_face
                [face_vertices.getD 0 0, face_vertices.getD i 0,
                  face_vertices.getD (i + 1) 0] none).2)
            mesh

/-- `Mesh::from_polygons_with_merge`. -/
def Mesh.from_polygons_with_merge (polygons : List (List Point))
    (precision : Option ℚ) : Mesh :=
  let precision := precision.getD (1 / 10 ^ 10)
  let c := fpmCollect precision polygons
  let r := c.2.foldl
    (fun (acc : Mesh × List Nat) v =>
      let t := acc.1.add_vertex v none
      (t.2, acc.2 ++ [t.1]))
    (Mesh.new, [])
  polygons.foldl (fpmAddFace precision c.1 r.2) r.1

/-! ## C4: the vertex-merging policy of the polygon-soup builders -/

theorem alookup_mem {κ : Type} [DecidableEq κ] (l : List (κ × Nat)) (k : κ) (i : Nat)
    (h : alookup l k = some i) : (k, i) ∈ l := by
  induction l with
  | nil => simp [alookup] at h
  | cons kv rest ih =>
      rw [alookup] at h
      split at h
      · rename_i hk
        subst hk
        rw [Option.some_inj] at h
        subst h
        exact List.mem_cons_self _ _
      · exact List.mem_cons_of_mem _ (ih h)

theorem snd_nodup_unique {κ : Type} (l : List (κ × Nat)) (hnd : (l.map Prod.snd).Nodup)
    (a b : κ) (c : Nat) (ha : (a, c) ∈ l) (hb : (b, c) ∈ l) : a = b := by
  induction l with
  | nil => simp at ha
  | cons kv rest ih =>
      rw [List.map_cons, List.nodup_cons] at hnd
      rcases List.mem_cons.mp ha with hah | hat
      · rcases List.mem_cons.mp hb with hbh | hbt
        · rw [← hah] at hbh
          exact (congrArg Prod.fst hbh).symm
        · exfalso
          apply hnd.1
          have : kv.2 = c := congrArg Prod.snd hah.symm
          rw [this]
          exact List.mem_map.mpr ⟨(b, c), hbt, rfl⟩
      · rcases List.mem_cons.mp hb with hbh | hbt
        · exfalso
          apply hnd.1
          have : kv.2 = c := congrArg Prod.snd hbh.symm
          rw [this]
          exact List.mem_map.mpr ⟨(a, c), hat, rfl⟩
        · exact ih hnd.2 hat hbt

/-- Invariants of the first (vertex-collection) pass of
`from_polygons_with_merge`, over any flat list of processed points. -/
theorem fpmCollect_fold_inv (precision : ℚ) (pts : List Point)
    (st : List ((ℤ × ℤ × ℤ) × Nat) × List Point)
    (h1 : ∀ kv ∈ st.1, kv.2 < st.2.length)
    (h2 : (st.1.map Prod.snd).Nodup) :
    (∀ kv ∈ (pts.foldl (fpmCollectPoint precision) st).1,
        kv.2 < (pts.foldl (fpmCollectPoint precision) st).2.length) ∧
    (((pts.foldl (fpmCollectPoint precision) st).1.map Prod.snd).Nodup) ∧
    (∀ k, (alookup st.1 k).isSome = true →
      alookup (pts.foldl (fpmCollectPoint precision) st).1 k = alookup st.1 k) ∧
    (∀ p ∈ pts,
      (alookup (pts.foldl (fpmCollectPoint precision) st).1
        (fpmKey precision p)).isSome = true) := by
  induction pts generalizing st with
  | nil => exact ⟨h1, h2, fun k _ => rfl, by simp⟩
  | cons p rest ih =>
      simp only [List.foldl_cons]
      rcases hkey : alookup st.1 (fpmKey precision p) with _ | idx
      · -- new key: fpmCollectPoint conses ((key, |pts|)) and appends the point
        have hstep : fpmCollectPoint precision st p
            = ((fpmKey precision p, st.2.length) :: st.1, st.2 ++ [p]) := by
          unfold fpmCollectPoint
          dsimp only
          rw [hkey]
        have h1' : ∀ kv ∈ (fpmCollectPoint precision st p).1,
            kv.2 < (fpmCollectPoint precision st p).2.length := by
          rw [hstep]
          intro kv hkv
          rcases List.mem_cons.mp hkv with hh | ht
          · subst hh
            simp
          · have := h1 kv ht
            simp only [List.length_append, List.length_cons, List.length_nil]
            omega
        have h2' : ((fpmCollectPoint precision st p).1.map Prod.snd).Nodup := by
          rw [hstep]
          simp only [List.map_cons, List.nodup_cons]
          constructor
          · intro hmem
            rcases List.mem_map.mp hmem with ⟨kv, hkv, hsnd⟩
            have := h1 kv hkv
            omega
          · exact h2
        rcases ih (fpmCollectPoint precision st p) h1' h2' with ⟨g1, g2, g3, g4⟩
        refine ⟨g1, g2, ?_, ?_⟩
        · intro k hk
          have hkne : k ≠ fpmKey precision p := by
            intro hkeq
            rw [hkeq, hkey] at hk
            simp at hk
          have hpre : alookup (fpmCollectPoint precision st p).1 k = alookup st.1 k := by
            rw [hstep]
            simp only [alookup]
            rw [if_neg hkne]
          rw [g3 k (by rw [hpre]; exact hk), hpre]
        · intro q hq
          rcases List.mem_cons.mp hq with hqp | hqr
          · rw [hqp]
            have hself : alookup (fpmCollectPoint precision st p).1 (fpmKey precision p)
                = some st.2.length := by
              rw [hstep]
              simp [alookup]
            rw [g3 _ (by rw [hself]; rfl), hself]
            rfl
          · exact g4 q hqr
      · -- key already present: state unchanged
        have hstep : fpmCollectPoint precision st p = st := by
          unfold fpmCollectPoint
          dsimp only
          rw [hkey]
        rw [hstep]
        rcases ih st h1 h2 with ⟨g1, g2, g3, g4⟩
        refine ⟨g1, g2, g3, ?_⟩
        intro q hq
        rcases List.mem_cons.mp hq with hqp | hqr
        · rw [hqp]
          rw [g3 _ (by rw [hkey]; rfl), hkey]
          rfl
        · exact g4 q hqr

/-- The nested polygon/point loops of the first pass visit exactly the flat
point list. -/
theorem fpmCollect_eq_flat (precision : ℚ) (polygons : List (List Point)) :
    fpmCollect precision polygons
      = (polygons.flatMap id).foldl (fpmCollectPoint precision) ([], []) := by
  unfold fpmCollect
  generalize ([], []) = st
  induction polygons generalizing st with
  | nil => rfl
  | cons poly rest ih =>
      simp only [List.foldl_cons, List.flatMap_cons, List.foldl_append, id]
      exact ih _

/-- The second-pass vertex-insertion fold produces the strictly increasing key
list `max_vertex + 2*i + 1`. -/
theorem addVerticesFold_keys (l : List Point) (m : Mesh) (acc : List Nat) :
    (l.foldl
      (fun (acc : Mesh × List Nat) v =>
        let t := acc.1.add_vertex v none
        (t.2, acc.2 ++ [t.1]))
      (m, acc)).2
      = acc ++ (List.range l.length).map (fun i => m.max_vertex + 2 * i + 1) := by
  induction l generalizing m acc with
  | nil => simp
  | cons p rest ih =>
      simp only [List.foldl_cons]
      have hkey : (m.add_vertex p none).1 = m.max_vertex + 1 := rfl
      have hmax : (m.add_vertex p none).2.max_vertex = m.max_vertex + 2 := by
        unfold Mesh.add_vertex
        simp
      rw [ih, hmax, hkey]
      simp only [List.length_cons, List.range_succ_eq_map, List.map_cons, List.map_map]
      have hfun : (fun i => m.max_vertex + 2 * i + 1) ∘ Nat.succ
          = fun i => m.max_vertex + 2 + 2 * i + 1 := by
        funext i
        simp only [Function.comp_apply]
        omega
      have h0 : m.max_vertex + 2 * 0 + 1 = m.max_vertex + 1 := by omega
      rw [hfun, h0, List.append_assoc, List.singleton_append]

/-- The mesh-vertex-key list produced by the second phase of
`from_polygons_with_merge` (one auto-keyed vertex per unique merged point). -/
def fpmMkeys (precision : ℚ) (polygons : List (List Point)) : List Nat :=
  ((fpmCollect precision polygons).2.foldl
    (fun (acc : Mesh × List Nat) v =>
      let t := acc.1.add_vertex v none
      (t.2, acc.2 ++ [t.1]))
    (Mesh.new, [])).2

/-- The mesh vertex key `from_polygons_with_merge` assigns to an input point
(`mesh_vertex_keys[vertex_map[point_key(point)]]`). -/
def fpmAssignedKey (precision : ℚ) (polygons : List (List Point)) (pt : Point) : Nat :=
  (fpmMkeys precision polygons).getD
    ((alookup (fpmCollect precision polygons).1 (fpmKey precision pt)).getD 0) 0

/-- The face lists of the second pass are exactly the per-point assigned keys. -/
theorem fpmFaceVertices_eq_map (precision : ℚ) (polygons : List (List Point))
    (poly : List Point) :
    fpmFaceVertices precision (fpmCollect precision polygons).1
      (fpmMkeys precision polygons) poly
      = poly.map (fpmAssignedKey precision polygons) := rfl

theorem getD_map_range (n i : Nat) (f : Nat → Nat) (hi : i < n) :
    ((List.range n).map f).getD i 0 = f i := by
  have hlen : i < ((List.range n).map f).length := by
    simpa using hi
  rw [List.getD_eq_getElem _ 0 hlen, List.getElem_map, List.getElem_range]

theorem toI64_eq_self (z : ℤ) (h1 : -(2 ^ 63) ≤ z) (h2 : z ≤ 2 ^ 63 - 1) :
    toI64 z = z := by
  unfold toI64
  rw [min_eq_right h2, max_eq_right h1]

/-- In-range side condition for the `as i64` cast of the with-merge key. -/
def inRange64 (precision : ℚ) (pt : Point) : Prop :=
  (-(2 ^ 63) ≤ rustRound (pt.x * (1 / precision)) ∧
    rustRound (pt.x * (1 / precision)) ≤ 2 ^ 63 - 1) ∧
  (-(2 ^ 63) ≤ rustRound (pt.y * (1 / precision)) ∧
    rustRound (pt.y * (1 / precision)) ≤ 2 ^ 63 - 1) ∧
  (-(2 ^ 63) ≤ rustRound (pt.z * (1 / precision)) ∧
    rustRound (pt.z * (1 / precision)) ≤ 2 ^ 63 - 1)

/-- The claim's merge criterion, written from the spec's words (for comparison
with the code's key): `round(coord / precision) * precision` agrees on all
three coordinate axes. -/
def specMergeCriterion (precision : ℚ) (p q : Point) : Prop :=
  (rustRound (p.x / precision) : ℚ) * precision
      = (rustRound (q.x / precision) : ℚ) * precision ∧
  (rustRound (p.y / precision) : ℚ) * precision
      = (rustRound (q.y / precision) : ℚ) * precision ∧
  (rustRound (p.z / precision) : ℚ) * precision
      = (rustRound (q.z / precision) : ℚ) * precision

instance (precision : ℚ) (p q : Point) : Decidable (specMergeCriterion precision p q) := by
  unfold specMergeCriterion
  infer_instance

/-- Two triangles sharing an edge, given as 6 independent points. -/
def tri2 : List (List Point) :=
  [[⟨0, 0, 0⟩, ⟨1, 0, 0⟩, ⟨0, 1, 0⟩], [⟨1, 0, 0⟩, ⟨1, 1, 0⟩, ⟨0, 1, 0⟩]]

/-- The same two triangles with `1e-9` perturbations on the shared edge. -/
def tri2p : List (List Point) :=
  [[⟨0, 0, 0⟩, ⟨1, 0, 0⟩, ⟨0, 1, 0⟩],
   [⟨1 + 1 / 10 ^ 9, 0, 0⟩, ⟨1, 1, 0⟩, ⟨1 / 10 ^ 9, 1, 0⟩]]

set_option maxRecDepth 100000 in
/-- **C4 (amended).** Under `from_polygons_with_merge`, two input points are
assigned the same mesh vertex iff the code's integer merge key
`round(coord * (1/precision)) as i64` agrees on all three axes; for nonzero
precision and keys within the `i64` range this criterion coincides with the
claim's `round(coord/precision) * precision` equality.  The two concrete
scenarios hold: the shared-edge triangles collapse to 4 vertices and 2 faces at
default precision, and with precision `1e-12` against `1e-9` perturbations all
6 vertices stay unmerged.  (For `from_polygons` the criterion is *different* —
see the counterexample: its string key additionally rounds to 10 decimal
places.) -/
theorem with_merge_policy_and_scenarios (precision : ℚ) (polygons : List (List Point))
    (p q : Point) (hp : ∃ poly ∈ polygons, p ∈ poly)
    (hq : ∃ poly ∈ polygons, q ∈ poly) :
    (fpmAssignedKey precision polygons p = fpmAssignedKey precision polygons q
        ↔ fpmKey precision p = fpmKey precision q) ∧
    (precision ≠ 0 → inRange64 precision p → inRange64 precision q →
        (fpmKey precision p = fpmKey precision q ↔ specMergeCriterion precision p q)) ∧
    (Mesh.from_polygons_with_merge tri2 none).number_of_vertices = 4 ∧
    (Mesh.from_polygons_with_merge tri2 none).number_of_faces = 2 ∧
    (Mesh.from_polygons_with_merge tri2p (some (1 / 10 ^ 12))).number_of_vertices = 6 := by
  have hflat := fpmCollect_eq_flat precision polygons
  have hinv := fpmCollect_fold_inv precision (polygons.flatMap id) ([], [])
    (by simp) (by simp)
  rcases hinv with ⟨g1, g2, _, g4⟩
  have hpflat : p ∈ polygons.flatMap id := by
    rcases hp with ⟨poly, hpoly, hmem⟩
    exact List.mem_flatMap.mpr ⟨poly, hpoly, hmem⟩
  have hqflat : q ∈ polygons.flatMap id := by
    rcases hq with ⟨poly, hpoly, hmem⟩
    exact List.mem_flatMap.mpr ⟨poly, hpoly, hmem⟩
  have hpS := g4 p hpflat
  have hqS := g4 q hqflat
  rw [← hflat] at g1 g2 hpS hqS
  rcases Option.isSome_iff_exists.mp hpS with ⟨ip, hip⟩
  rcases Option.isSome_iff_exists.mp hqS with ⟨iq, hiq⟩
  have hipB : ip < (fpmCollect precision polygons).2.length :=
    g1 _ (alookup_mem _ _ _ hip)
  have hiqB : iq < (fpmCollect precision polygons).2.length :=
    g1 _ (alookup_mem _ _ _ hiq)
  have hmk : fpmMkeys precision polygons
      = (List.range (fpmCollect precision polygons).2.length).map
          (fun i => Mesh.new.max_vertex + 2 * i + 1) := by
    unfold fpmMkeys
    rw [addVerticesFold_keys]
    rfl
  have hassigned : ∀ (pt : Point) (ipt : Nat),
      alookup (fpmCollect precision polygons).1 (fpmKey precision pt) = some ipt →
      ipt < (fpmCollect precision polygons).2.length →
      fpmAssignedKey precision polygons pt = 2 * ipt + 1 := by
    intro pt ipt hlo hbd
    unfold fpmAssignedKey
    rw [hlo, hmk]
    simp only [Option.getD_some]
    rw [getD_map_range _ _ _ hbd]
    show Mesh.new.max_vertex + 2 * ipt + 1 = 2 * ipt + 1
    simp [Mesh.new]
  refine ⟨?_, ?_, ?_, ?_, ?_⟩
  · constructor
    · intro hsame
      rw [hassigned p ip hip hipB, hassigned q iq hiq hiqB] at hsame
      have hii : ip = iq := by omega
      subst hii
      exact snd_nodup_unique _ g2 _ _ _ (alookup_mem _ _ _ hip) (alookup_mem _ _ _ hiq)
    · intro hkeys
      unfold fpmAssignedKey
      rw [hkeys]
  · intro hprec hrp hrq
    have hdiv : ∀ (c : ℚ), c * (1 / precision) = c / precision := fun c =>
      mul_one_div c precision
    have haxis : ∀ (a b : ℚ),
        -(2 ^ 63) ≤ rustRound (a * (1 / precision)) →
        rustRound (a * (1 / precision)) ≤ 2 ^ 63 - 1 →
        -(2 ^ 63) ≤ rustRound (b * (1 / precision)) →
        rustRound (b * (1 / precision)) ≤ 2 ^ 63 - 1 →
        (toI64 (rustRound (a * (1 / precision)))
            = toI64 (rustRound (b * (1 / precision))) ↔
          (rustRound (a / precision) : ℚ) * precision
            = (rustRound (b / precision) : ℚ) * precision) := by
      intro a b ha1 ha2 hb1 hb2
      rw [toI64_eq_self _ ha1 ha2, toI64_eq_self _ hb1 hb2, hdiv a, hdiv b]
      constructor
      · intro h
        rw [h]
      · intro h
        have := mul_right_cancel₀ hprec h
        exact_mod_cast this
    unfold fpmKey specMergeCriterion
    rcases hrp with ⟨hpx, hpy, hpz⟩
    rcases hrq with ⟨hqx, hqy, hqz⟩
    rw [Prod.ext_iff, Prod.ext_iff]
    constructor
    · rintro ⟨h1, h2, h3⟩
      exact ⟨(haxis _ _ hpx.1 hpx.2 hqx.1 hqx.2).mp h1,
        (haxis _ _ hpy.1 hpy.2 hqy.1 hqy.2).mp h2,
        (haxis _ _ hpz.1 hpz.2 hqz.1 hqz.2).mp h3⟩
    · rintro ⟨h1, h2, h3⟩
      exact ⟨(haxis _ _ hpx.1 hpx.2 hqx.1 hqx.2).mpr h1,
        (haxis _ _ hpy.1 hpy.2 hqy.1 hqy.2).mpr h2,
        (haxis _ _ hpz.1 hpz.2 hqz.1 hqz.2).mpr h3⟩
  · with_unfolding_all decide
  · with_unfolding_all decide
  · with_unfolding_all decide

/-- Witness for the amended C4 at a concrete input: the shared corner `(1,0,0)`
of the two triangles and the distinct corner `(0,1,0)`. -/
theorem with_merge_policy_witness :
    (∃ poly ∈ tri2, (⟨1, 0, 0⟩ : Point) ∈ poly) ∧
    (fpmAssignedKey (1 / 10 ^ 10) tri2 ⟨1, 0, 0⟩
        = fpmAssignedKey (1 / 10 ^ 10) tri2 ⟨0, 1, 0⟩
      ↔ fpmKey (1 / 10 ^ 10) ⟨1, 0, 0⟩ = fpmKey (1 / 10 ^ 10) ⟨0, 1, 0⟩) :=
  ⟨⟨[⟨0, 0, 0⟩, ⟨1, 0, 0⟩, ⟨0, 1, 0⟩], by simp [tri2], by simp⟩,
   (with_merge_policy_and_scenarios (1 / 10 ^ 10) tri2 ⟨1, 0, 0⟩ ⟨0, 1, 0⟩
      ⟨[⟨0, 0, 0⟩, ⟨1, 0, 0⟩, ⟨0, 1, 0⟩], by simp [tri2], by simp⟩
      ⟨[⟨0, 0, 0⟩, ⟨1, 0, 0⟩, ⟨0, 1, 0⟩], by simp [tri2], by simp⟩).1⟩

/-- The `from_polygons` counterexample soup: two points `3e-12` apart plus a
distant third point, at precision `1e-12`. -/
def fpCexPolys : List (List Point) :=
  [[⟨0, 0, 0⟩, ⟨3 / 10 ^ 12, 0, 0⟩, ⟨1, 1, 0⟩]]

set_option maxRecDepth 100000 in
/-- **Counterexample to C4 as stated.** At precision `1e-12`, `from_polygons`
merges `(0,0,0)` and `(3e-12,0,0)` into a single mesh vertex (its string key
formats the rounded value with only 10 decimal places, collapsing both to
`0.0000000000`), although `round(coord/precision) * precision` does **not**
agree on the x axis (`0 ≠ 3e-12`): the claimed iff fails for `from_polygons`. -/
theorem from_polygons_merges_despite_round_mismatch :
    (Mesh.from_polygons fpCexPolys (some (1 / 10 ^ 12))).number_of_vertices = 2 ∧
    fpKey (1 / 10 ^ 12) ⟨0, 0, 0⟩ = fpKey (1 / 10 ^ 12) ⟨3 / 10 ^ 12, 0, 0⟩ ∧
    fpKey (1 / 10 ^ 12) ⟨0, 0, 0⟩ ≠ fpKey (1 / 10 ^ 12) ⟨1, 1, 0⟩ ∧
    ¬ specMergeCriterion (1 / 10 ^ 12) ⟨0, 0, 0⟩ ⟨3 / 10 ^ 12, 0, 0⟩ := by
  with_unfolding_all decide

/-! ## C3: the pipe/cylinder generator -/

/-- `primitives/xform.rs`: a 4×4 transform stored column-major as a flat array
(`self[(row, col)] = m[col*4 + row]`), entries idealized as `ℚ` and the array
as a total function on flat indices. -/
structure Xform where
  m : Nat → ℚ

/-- `Xform::identity`. -/
def Xform.identity : Xform :=
  ⟨fun i => if i = 0 ∨ i = 5 ∨ i = 10 ∨ i = 15 then 1 else 0⟩

/-- `Xform::translation`. -/
def Xform.translation (tx ty tz : ℚ) : Xform :=
  ⟨fun i =>
    if i = 12 then tx else if i = 13 then ty else if i = 14 then tz
    else Xform.identity.m i⟩

/-- `Xform::scaling`. -/
def Xform.scaling (sx sy sz : ℚ) : Xform :=
  ⟨fun i =>
    if i = 0 then sx else if i = 5 then sy else if i = 10 then sz
    else Xform.identity.m i⟩

/-- The `Index` impl `self[(row, col)]`. -/
def Xform.index (x : Xform) (i j : Nat) : ℚ :=
  x.m (j * 4 + i)

/-- `impl Mul for &Xform`: `result[(i,j)] = Σ_k self[(i,k)] * rhs[(k,j)]`. -/
def Xform.mul (a b : Xform) : Xform :=
  ⟨fun idx =>
    let i := idx % 4
    let j := idx / 4
    ∑ k ∈ Finset.range 4, a.index i k * b.index k j⟩

/-- `Xform::transform_point` (perspective division with the `1e-10` guard). -/
def Xform.transform_point (t : Xform) (point : Point) : Point :=
  let w := t.m 3 * point.x + t.m 7 * point.y + t.m 11 * point.z + t.m 15
  let w_inv := if 1 / 10 ^ 10 < |w| then 1 / w else 1
  Point.mk ((t.m 0 * point.x + t.m 4 * point.y + t.m 8 * point.z + t.m 12) * w_inv)
    ((t.m 1 * point.x + t.m 5 * point.y + t.m 9 * point.z + t.m 13) * w_inv)
    ((t.m 2 * point.x + t.m 6 * point.y + t.m 10 * point.z + t.m 14) * w_inv)

/-- The hardcoded 26-vertex 12-sided unit-cylinder template of
`Mesh::create_pipe` (the decimal literals of the source are exact in `ℚ`). -/
def unit_vertices : List Point :=
  [⟨0, 0, -0.5⟩,
   ⟨1.0000000000, 0.0000000000, -0.5⟩,
   ⟨0.8660254038, 0.5000000000, -0.5⟩,
   ⟨0.5000000000, 0.8660254038, -0.5⟩,
   ⟨0.0000000000, 1.0000000000, -0.5⟩,
   ⟨-0.5000000000, 0.8660254038, -0.5⟩,
   ⟨-0.8660254038, 0.5000000000, -0.5⟩,
   ⟨-1.0000000000, 0.0000000000, -0.5⟩,
   ⟨-0.8660254038, -0.5000000000, -0.5⟩,
   ⟨-0.5000000000, -0.8660254038, -0.5⟩,
   ⟨-0.0000000000, -1.0000000000, -0.5⟩,
   ⟨0.5000000000, -0.8660254038, -0.5⟩,
   ⟨0.8660254038, -0.5000000000, -0.5⟩,
   ⟨0, 0, 0.5⟩,
   ⟨1.0000000000, 0.0000000000, 0.5⟩,
   ⟨0.8660254038, 0.5000000000, 0.5⟩,
   ⟨0.5000000000, 0.8660254038, 0.5⟩,
   ⟨0.0000000000, 1.0000000000, 0.5⟩,
   ⟨-0.5000000000, 0.8660254038, 0.5⟩,
   ⟨-0.8660254038, 0.5000000000, 0.5⟩,
   ⟨-1.0000000000, 0.0000000000, 0.5⟩,
   ⟨-0.8660254038, -0.5000000000, 0.5⟩,
   ⟨-0.5000000000, -0.8660254038, 0.5⟩,
   ⟨-0.0000000000, -1.0000000000, 0.5⟩,
   ⟨0.5000000000, -0.8660254038, 0.5⟩,
   ⟨0.8660254038, -0.5000000000, 0.5⟩]

/-- The hardcoded 48 faces (12 bottom-cap, 12 top-cap, 24 side triangles). -/
def unit_faces : List (List Nat) :=
  [[0, 2, 1], [0, 3, 2], [0, 4, 3], [0, 5, 4],
   [0, 6, 5], [0, 7, 6], [0, 8, 7], [0, 9, 8],
   [0, 10, 9], [0, 11, 10], [0, 12, 11], [0, 1, 12],
   [13, 14, 15], [13, 15, 16], [13, 16, 17], [13, 17, 18],
   [13, 18, 19], [13, 19, 20], [13, 20, 21], [13, 21, 22],
   [13, 22, 23], [13, 23, 24], [13, 24, 25], [13, 25, 14],
   [1, 2, 14], [14, 2, 15], [2, 3, 15], [15, 3, 16],
   [3, 4, 16], [16, 4, 17], [4, 5, 17], [17, 5, 18],
   [5, 6, 18], [18, 6, 19], [6, 7, 19], [19, 7, 20],
   [7, 8, 20], [20, 8, 21], [8, 9, 21], [21, 9, 22],
   [9, 10, 22], [22, 10, 23], [10, 11, 23], [23, 11, 24],
   [11, 12, 24], [24, 12, 25], [12, 1, 25], [25, 1, 14]]

/-- The vertex-insertion loop of `Mesh::create_pipe`: transform each template
vertex by the composite transform and add it to a fresh mesh, collecting the
returned keys. -/
def pipeVertexFold (transform : Xform) : Mesh × List Nat :=
  unit_vertices.foldl
    (fun (acc : Mesh × List Nat) vertex =>
      let t := acc.1.add_vertex (transform.transform_point vertex) none
      (t.2, acc.2 ++ [t.1]))
    (Mesh.new, [])

/-- The face-insertion loop of `Mesh::create_pipe`. -/
def pipeResult (transform : Xform) : Mesh :=
  unit_faces.foldl
    (fun m face_indices =>
      (m.add_face (face_indices.map fun i => (pipeVertexFold transform).2.getD i 0)
        none).2)
    (pipeVertexFold transform).1

/-- `Mesh::create_pipe`.  Two quantities of the source are transcendental and
only influence vertex *positions*, never connectivity: the segment length
(`direction.length()`, a square root), abstracted as the parameter `len`, and
the rotation matrix (chosen via `acos`/trigonometric constructors), abstracted
as the parameter `rotation`.  The degenerate guard `length < 1e-6` is modelled
as the equivalent comparison of squares `length² < 1e-12`. -/
def Mesh.create_pipe (rotation : Xform) (len : ℚ) (start end_pt : Point)
    (radius : ℚ) : Mesh :=
  let mesh := Mesh.new
  let direction := Vector.mk (end_pt.x - start.x) (end_pt.y - start.y)
    (end_pt.z - start.z)
  if direction.length_squared < 1 / 10 ^ 12 then mesh
  else
    let scale := Xform.scaling radius radius len
    let translation := Xform.translation ((start.x + end_pt.x) / 2)
      ((start.y + end_pt.y) / 2) ((start.z + end_pt.z) / 2)
    let transform := (translation.mul rotation).mul scale
    pipeResult transform

theorem Map.length_insert {α : Type} (m : Map α) (k : Nat) (v : α) :
    (Map.insert m k v).length = if m.contains k then m.length else m.length + 1 := by
  induction m with
  | nil => simp [Map.insert, Map.contains, Map.find?]
  | cons hd tl ih =>
      by_cases hk : k = hd.1
      · simp [Map.insert, Map.contains, Map.find?, hk]
      · have hcon : Map.contains (hd :: tl) k = Map.contains tl k := by
          simp [Map.contains, Map.find?, hk]
        have hins : Map.insert (hd :: tl) k v = hd :: Map.insert tl k v := by
          simp [Map.insert, hk]
        rw [hins, List.length_cons, ih, hcon]
        by_cases hc : Map.contains tl k = true
        · simp [hc]
        · simp [hc]

/-- Everything the vertex-insertion fold of `create_pipe` does to the mesh, for
arbitrary position data `g`: counts, generated keys, key membership and the
counters — none of it depends on the positions. -/
theorem vertexFold_spec {α : Type} (l : List α) (g : α → Point) (m : Mesh)
    (acc : List Nat)
    (hinv : ∀ k, m.vertex.contains k = true → k < m.max_vertex + 1) :
    ((l.foldl (fun (acc : Mesh × List Nat) v =>
        let t := acc.1.add_vertex (g v) none
        (t.2, acc.2 ++ [t.1])) (m, acc)).1.number_of_vertices
      = m.number_of_vertices + l.length) ∧
    ((l.foldl (fun (acc : Mesh × List Nat) v =>
        let t := acc.1.add_vertex (g v) none
        (t.2, acc.2 ++ [t.1])) (m, acc)).2
      = acc ++ (List.range l.length).map (fun i => m.max_vertex + 2 * i + 1)) ∧
    (∀ k, ((l.foldl (fun (acc : Mesh × List Nat) v =>
        let t := acc.1.add_vertex (g v) none
        (t.2, acc.2 ++ [t.1])) (m, acc)).1.vertex.contains k = true ↔
        (m.vertex.contains k = true ∨
          k ∈ (List.range l.length).map (fun i => m.max_vertex + 2 * i + 1)))) ∧
    ((l.foldl (fun (acc : Mesh × List Nat) v =>
        let t := acc.1.add_vertex (g v) none
        (t.2, acc.2 ++ [t.1])) (m, acc)).1.face = m.face) ∧
    ((l.foldl (fun (acc : Mesh × List Nat) v =>
        let t := acc.1.add_vertex (g v) none
        (t.2, acc.2 ++ [t.1])) (m, acc)).1.max_face = m.max_face) := by
  induction l generalizing m acc with
  | nil => exact ⟨rfl, by simp, fun k => by simp, rfl, rfl⟩
  | cons p rest ih =>
      have hK : (m.add_vertex (g p) none).1 = m.max_vertex + 1 := rfl
      have hstep : (m.add_vertex (g p) none).2.vertex
          = m.vertex.insert (m.max_vertex + 1) (VertexData.new (g p)) := rfl
      have hmax : (m.add_vertex (g p) none).2.max_vertex = m.max_vertex + 2 := by
        unfold Mesh.add_vertex
        simp
      have hface : (m.add_vertex (g p) none).2.face = m.face := rfl
      have hmaxface : (m.add_vertex (g p) none).2.max_face = m.max_face := rfl
      have hnotmem : m.vertex.contains (m.max_vertex + 1) = false := by
        cases hc : m.vertex.contains (m.max_vertex + 1) with
        | false => rfl
        | true => exact absurd (hinv _ hc) (by omega)
      have hcount : (m.add_vertex (g p) none).2.number_of_vertices
          = m.number_of_vertices + 1 := by
        show ((m.add_vertex (g p) none).2.vertex).length = m.vertex.length + 1
        rw [hstep, Map.length_insert, hnotmem]
        simp
      have hinv' : ∀ k, (m.add_vertex (g p) none).2.vertex.contains k = true →
          k < (m.add_vertex (g p) none).2.max_vertex + 1 := by
        intro k hk
        rw [hstep] at hk
        rw [hmax]
        rcases (Map.contains_insert_iff _ _ _ _).mp hk with hke | hold
        · omega
        · have := hinv k hold
          omega
      rcases ih ((m.add_vertex (g p) none).2) (acc ++ [(m.add_vertex (g p) none).1])
          hinv' with ⟨c1, c2, c3, c4, c5⟩
      have hfun : (fun i => m.max_vertex + 2 * i + 1) ∘ Nat.succ
          = fun i => m.max_vertex + 2 + 2 * i + 1 := by
        funext i
        simp only [Function.comp_apply]
        omega
      have hmaps : (List.range (p :: rest).length).map (fun i => m.max_vertex + 2 * i + 1)
          = (m.max_vertex + 1) ::
            (List.range rest.length).map (fun i => m.max_vertex + 2 + 2 * i + 1) := by
        rw [List.length_cons, List.range_succ_eq_map]
        simp only [List.map_cons, List.map_map, hfun]
      simp only [List.foldl_cons]
      refine ⟨?_, ?_, ?_, ?_, ?_⟩
      · rw [c1, hcount]
        simp only [List.length_cons]
        omega
      · rw [c2, hmax, hK, hmaps, List.append_assoc, List.singleton_append]
      · intro k
        rw [c3 k, hstep, hmax, hmaps]
        rw [Map.contains_insert_iff]
        simp only [List.mem_cons]
        constructor
        · rintro ((hk | hk) | hk) <;> tauto
        · rintro (hk | (hk | hk)) <;> tauto
      · rw [c4, hface]
      · rw [c5, hmaxface]

/-- Everything the face-insertion fold of `create_pipe` does: every listed face
is valid, so each step inserts one face at a fresh auto key and leaves the
vertex map untouched. -/
theorem faceFold_spec (faces : List (List Nat)) (m : Mesh)
    (hval : ∀ fl ∈ faces, 3 ≤ fl.length ∧ fl.Nodup ∧
      ∀ v ∈ fl, m.vertex.contains v = true)
    (hfinv : ∀ k, m.face.contains k = true → k < m.max_face + 1) :
    ((faces.foldl (fun mm fl => (mm.add_face fl none).2) m).number_of_faces
      = m.number_of_faces + faces.length) ∧
    ((faces.foldl (fun mm fl => (mm.add_face fl none).2) m).vertex = m.vertex) := by
  induction faces generalizing m with
  | nil => exact ⟨rfl, rfl⟩
  | cons fl rest ih =>
      rcases hval fl (List.mem_cons_self _ _) with ⟨hlen, hnd, hex⟩
      have hsucc : m.add_face fl none = add_face_checked m fl none :=
        add_face_valid_eq m fl none hlen hex hnd
      have hfacemap : (m.add_face fl none).2.face
          = m.face.insert (m.max_face + 1) fl := by
        rw [hsucc, add_face_checked_face]
        rfl
      have hnotmem : m.face.contains (m.max_face + 1) = false := by
        cases hc : m.face.contains (m.max_face + 1) with
        | false => rfl
        | true => exact absurd (hfinv _ hc) (by omega)
      have hcount : (m.add_face fl none).2.number_of_faces
          = m.number_of_faces + 1 := by
        show ((m.add_face fl none).2.face).length = m.face.length + 1
        rw [hfacemap, Map.length_insert, hnotmem]
        simp
      have hvtx : (m.add_face fl none).2.vertex = m.vertex :=
        add_face_vertex_eq m fl none
      have hmaxface : (m.add_face fl none).2.max_face = m.max_face + 2 := by
        rw [hsucc]
        show (if m.max_face + 1 ≤ m.max_face + 1 then m.max_face + 1 + 1
          else m.max_face + 1) = m.max_face + 2
        simp
      have hfinv' : ∀ k, (m.add_face fl none).2.face.contains k = true →
          k < (m.add_face fl none).2.max_face + 1 := by
        intro k hk
        rw [hfacemap] at hk
        rw [hmaxface]
        rcases (Map.contains_insert_iff _ _ _ _).mp hk with hke | hold
        · omega
        · have := hfinv k hold
          omega
      have hval' : ∀ gl ∈ rest, 3 ≤ gl.length ∧ gl.Nodup ∧
          ∀ v ∈ gl, (m.add_face fl none).2.vertex.contains v = true := by
        intro gl hgl
        rcases hval gl (List.mem_cons_of_mem _ hgl) with ⟨h1, h2, h3⟩
        exact ⟨h1, h2, fun v hv => by rw [hvtx]; exact h3 v hv⟩
      rcases ih ((m.add_face fl none).2) hval' hfinv' with ⟨c1, c2⟩
      simp only [List.foldl_cons]
      refine ⟨?_, by rw [c2, hvtx]⟩
      rw [c1, hcount]
      simp only [List.length_cons]
      omega

/-- The 48 template faces all have 3 distinct indices below 26. -/
theorem unit_faces_shape :
    ∀ fi ∈ unit_faces, (∀ i ∈ fi, i < 26) ∧ 3 ≤ fi.length ∧ fi.Nodup := by
  decide

/-- The non-degenerate body of `create_pipe` always yields 26 vertices and 48
faces, whatever the composite transform `T` does to positions. -/
theorem pipe_body_counts (T : Xform) :
    (pipeResult T).number_of_vertices = 26 ∧ (pipeResult T).number_of_faces = 48 := by
  have hinv0 : ∀ k, Mesh.new.vertex.contains k = true →
      k < Mesh.new.max_vertex + 1 := by
    intro k hk
    simp [Mesh.new, Map.contains, Map.find?] at hk
  rcases vertexFold_spec unit_vertices (fun v => T.transform_point v) Mesh.new []
    hinv0 with ⟨v1, v2, v3, v4, _⟩
  have hlen26 : unit_vertices.length = 26 := by decide
  have hkeys : (pipeVertexFold T).2 = (List.range 26).map (fun i => 2 * i + 1) := by
    show (unit_vertices.foldl _ (Mesh.new, [])).2 = _
    rw [v2, hlen26]
    rw [List.nil_append]
    apply List.map_congr_left
    intro i _
    show Mesh.new.max_vertex + 2 * i + 1 = 2 * i + 1
    simp [Mesh.new]
  have hval : ∀ fl ∈ unit_faces.map (fun face_indices =>
      face_indices.map fun i => (pipeVertexFold T).2.getD i 0),
      3 ≤ fl.length ∧ fl.Nodup ∧
      ∀ v ∈ fl, (pipeVertexFold T).1.vertex.contains v = true := by
    intro fl hfl
    rcases List.mem_map.mp hfl with ⟨fi, hfi, rfl⟩
    have hbound : ∀ i ∈ fi, i < 26 := (unit_faces_shape fi hfi).1
    have hshape : 3 ≤ fi.length ∧ fi.Nodup := (unit_faces_shape fi hfi).2
    have hgetD : ∀ i ∈ fi, (pipeVertexFold T).2.getD i 0 = 2 * i + 1 := by
      intro i hi
      rw [hkeys]
      exact getD_map_range 26 i _ (hbound i hi)
    refine ⟨by simpa using hshape.1, ?_, ?_⟩
    · apply List.Nodup.map_on
      · intro a ha b hb hab
        rw [hgetD a ha, hgetD b hb] at hab
        omega
      · exact hshape.2
    · intro v hv
      rcases List.mem_map.mp hv with ⟨i, hi, rfl⟩
      rw [hgetD i hi]
      have hmem := (v3 (2 * i + 1)).mpr
      apply hmem
      right
      apply List.mem_map.mpr
      refine ⟨i, by simpa [hlen26] using hbound i hi, ?_⟩
      show Mesh.new.max_vertex + 2 * i + 1 = 2 * i + 1
      simp [Mesh.new]
  have hfinv : ∀ k, (pipeVertexFold T).1.face.contains k = true →
      k < (pipeVertexFold T).1.max_face + 1 := by
    intro k hk
    have hfc : (pipeVertexFold T).1.face = Mesh.new.face := v4
    rw [hfc] at hk
    simp [Mesh.new, Map.contains, Map.find?] at hk
  rcases faceFold_spec _ _ hval hfinv with ⟨f1, f2⟩
  rw [List.foldl_map] at f1 f2
  have g1 : (pipeResult T).number_of_faces
      = (pipeVertexFold T).1.number_of_faces
        + (unit_faces.map (fun face_indices =>
            face_indices.map fun i => (pipeVertexFold T).2.getD i 0)).length := f1
  have g2 : (pipeResult T).vertex = (pipeVertexFold T).1.vertex := f2
  constructor
  · show ((pipeResult T).vertex).length = 26
    rw [g2]
    have hv1 : (pipeVertexFold T).1.number_of_vertices
        = Mesh.new.number_of_vertices + unit_vertices.length := v1
    rw [hlen26] at hv1
    exact hv1
  · rw [g1]
    have hlen48 : (unit_faces.map (fun face_indices =>
        face_indices.map fun i => (pipeVertexFold T).2.getD i 0)).length = 48 := by
      rw [List.length_map]
      decide
    rw [hlen48]
    have hfc : (pipeVertexFold T).1.face = Mesh.new.face := v4
    show ((pipeVertexFold T).1.face).length + 48 = 48
    rw [hfc]
    rfl

/-- **C3 (amended).** For every rotation, length, radius and every pair of
points at squared distance `≥ 1e-12` (distance `≥ 1e-6`, which includes the
claim's strict `> 1e-6`), `create_pipe` returns a mesh with exactly 26 vertices
and 48 faces; when the squared distance is `< 1e-12` (distance strictly below
`1e-6` — not `≤` as claimed, see the counterexample) it returns the empty mesh
with 0 vertices and 0 faces. -/
theorem create_pipe_counts (rotation : Xform) (len : ℚ) (s e : Point) (radius : ℚ) :
    ((Vector.mk (e.x - s.x) (e.y - s.y) (e.z - s.z)).length_squared < 1 / 10 ^ 12 →
      Mesh.create_pipe rotation len s e radius = Mesh.new ∧
      (Mesh.create_pipe rotation len s e radius).number_of_vertices = 0 ∧
      (Mesh.create_pipe rotation len s e radius).number_of_faces = 0) ∧
    (¬ (Vector.mk (e.x - s.x) (e.y - s.y) (e.z - s.z)).length_squared < 1 / 10 ^ 12 →
      (Mesh.create_pipe rotation len s e radius).number_of_vertices = 26 ∧
      (Mesh.create_pipe rotation len s e radius).number_of_faces = 48) := by
  constructor
  · intro hdeg
    have heq : Mesh.create_pipe rotation len s e radius = Mesh.new := by
      unfold Mesh.create_pipe
      rw [if_pos hdeg]
    exact ⟨heq, by rw [heq]; rfl, by rw [heq]; rfl⟩
  · intro hdeg
    unfold Mesh.create_pipe
    rw [if_neg hdeg]
    exact pipe_body_counts
      ((Xform.translation ((s.x + e.x) / 2) ((s.y + e.y) / 2)
        ((s.z + e.z) / 2)).mul rotation |>.mul (Xform.scaling radius radius len))

/-- **Counterexample to C3 as stated.** At distance *exactly* `1e-6` (squared
distance exactly `1e-12`) the guard `length < 1e-6` does not fire: the claim
says such a pipe is empty, but the code builds the full 26-vertex/48-face
mesh. -/
theorem create_pipe_at_exact_threshold_not_empty :
    (Vector.mk (1 / 10 ^ 6 - 0) (0 - 0) (0 - 0)).length_squared = 1 / 10 ^ 12 ∧
    (Mesh.create_pipe Xform.identity (1 / 10 ^ 6) ⟨0, 0, 0⟩ ⟨1 / 10 ^ 6, 0, 0⟩
      1).number_of_vertices = 26 ∧
    (Mesh.create_pipe Xform.identity (1 / 10 ^ 6) ⟨0, 0, 0⟩ ⟨1 / 10 ^ 6, 0, 0⟩
      1).number_of_faces = 48 ∧
    (Mesh.new.number_of_vertices = 0 ∧ Mesh.new.number_of_faces = 0) := by
  refine ⟨by with_unfolding_all rfl, ?_, ?_, by with_unfolding_all decide⟩
  · exact ((create_pipe_counts Xform.identity (1 / 10 ^ 6) ⟨0, 0, 0⟩
      ⟨1 / 10 ^ 6, 0, 0⟩ 1).2 (by with_unfolding_all decide)).1
  · exact ((create_pipe_counts Xform.identity (1 / 10 ^ 6) ⟨0, 0, 0⟩
      ⟨1 / 10 ^ 6, 0, 0⟩ 1).2 (by with_unfolding_all decide)).2

/-- Witness for the amended C3 (non-degenerate and degenerate cases at concrete
inputs). -/
theorem create_pipe_counts_witness :
    (¬ (Vector.mk (1 - 0) (0 - 0) (0 - 0)).length_squared < 1 / 10 ^ 12 ∧
      (Mesh.create_pipe Xform.identity 1 ⟨0, 0, 0⟩ ⟨1, 0, 0⟩ (1 / 5)).number_of_vertices
        = 26 ∧
      (Mesh.create_pipe Xform.identity 1 ⟨0, 0, 0⟩ ⟨1, 0, 0⟩ (1 / 5)).number_of_faces
        = 48) ∧
    ((Vector.mk (0 - 0) (0 - 0) (0 - 0)).length_squared < 1 / 10 ^ 12 ∧
      Mesh.create_pipe Xform.identity 0 ⟨0, 0, 0⟩ ⟨0, 0, 0⟩ (1 / 5) = Mesh.new) :=
  ⟨⟨by with_unfolding_all decide,
    ((create_pipe_counts Xform.identity 1 ⟨0, 0, 0⟩ ⟨1, 0, 0⟩ (1 / 5)).2
      (by with_unfolding_all decide)).1,
    ((create_pipe_counts Xform.identity 1 ⟨0, 0, 0⟩ ⟨1, 0, 0⟩ (1 / 5)).2
      (by with_unfolding_all decide)).2⟩,
   ⟨by with_unfolding_all decide,
    ((create_pipe_counts Xform.identity 0 ⟨0, 0, 0⟩ ⟨0, 0, 0⟩ (1 / 5)).1
      (by with_unfolding_all decide)).1⟩⟩

/-- The seen-set fold of `number_of_edges` counts exactly the distinct elements
not already seen. -/
theorem seenFold_counts (L : List (Nat × Nat)) (seen : List (Nat × Nat)) (c : Nat) :
    (L.foldl (fun acc e => if e ∈ acc.1 then acc else (e :: acc.1, acc.2 + 1))
      (seen, c)).2 = c + (L.toFinset \ seen.toFinset).card := by
  induction L generalizing seen c with
  | nil => simp
  | cons e rest ih =>
      simp only [List.foldl_cons]
      by_cases he : e ∈ seen
      · rw [if_pos he, ih]
        congr 2
        rw [List.toFinset_cons, Finset.insert_sdiff_of_mem _ (List.mem_toFinset.mpr he)]
      · rw [if_neg he, ih]
        have hins : (e :: rest).toFinset \ seen.toFinset
            = insert e (rest.toFinset \ (e :: seen).toFinset) := by
          ext x
          simp only [List.toFinset_cons, Finset.mem_sdiff, Finset.mem_insert,
            List.mem_toFinset]
          constructor
          · rintro ⟨hx | hx, hxs⟩
            · exact Or.inl hx
            · by_cases hxe : x = e
              · exact Or.inl hxe
              · exact Or.inr ⟨hx, by simp [hxe, hxs]⟩
          · rintro (hx | ⟨hx, hxs⟩)
            · refine ⟨Or.inl hx, ?_⟩
              subst hx
              simpa using he
            · refine ⟨Or.inr hx, ?_⟩
              intro hxseen
              apply hxs
              simp [hxseen]
        rw [hins, Finset.card_insert_of_not_mem]
        · omega
        · simp

/-- `number_of_edges` equals the cardinality of the *set* of normalized
undirected pairs: each pair is counted exactly once. -/
theorem number_of_edges_eq_card (m : Mesh) :
    m.number_of_edges = (Mesh.edgeKeyList m).toFinset.card := by
  unfold Mesh.number_of_edges
  rw [seenFold_counts]
  simp

/-- A closed unit cube as 6 independent quad faces (24 corner points). -/
def cubePolygons : List (List Point) :=
  [[⟨0, 0, 0⟩, ⟨1, 0, 0⟩, ⟨1, 1, 0⟩, ⟨0, 1, 0⟩],
   [⟨0, 0, 1⟩, ⟨1, 0, 1⟩, ⟨1, 1, 1⟩, ⟨0, 1, 1⟩],
   [⟨0, 0, 0⟩, ⟨1, 0, 0⟩, ⟨1, 0, 1⟩, ⟨0, 0, 1⟩],
   [⟨0, 1, 0⟩, ⟨1, 1, 0⟩, ⟨1, 1, 1⟩, ⟨0, 1, 1⟩],
   [⟨0, 0, 0⟩, ⟨0, 1, 0⟩, ⟨0, 1, 1⟩, ⟨0, 0, 1⟩],
   [⟨1, 0, 0⟩, ⟨1, 1, 0⟩, ⟨1, 1, 1⟩, ⟨1, 0, 1⟩]]

set_option maxRecDepth 100000 in
/-- **C6.** A closed unit cube built from its 6 quad faces via `from_polygons`
has 8 vertices, 6 faces, 12 undirected edges and Euler characteristic 2; and in
general `number_of_edges` counts each undirected pair `{u,v}` exactly once (it
equals the cardinality of the set of normalized pairs) no matter how many
directed halfedge entries produce it. -/
theorem cube_counts_and_edge_dedup :
    (∀ m : Mesh, m.number_of_edges = (Mesh.edgeKeyList m).toFinset.card) ∧
    (Mesh.from_polygons cubePolygons none).number_of_vertices = 8 ∧
    (Mesh.from_polygons cubePolygons none).number_of_faces = 6 ∧
    (Mesh.from_polygons cubePolygons none).number_of_edges = 12 ∧
    (Mesh.from_polygons cubePolygons none).euler = 2 :=
  ⟨number_of_edges_eq_card, by with_unfolding_all decide, by with_unfolding_all decide,
   by with_unfolding_all decide, by with_unfolding_all decide⟩


/-! ## C9: termination of the clipping loop -/

/-- Each pass of the clipping loop removes one active vertex (via `eraseIdx`)
or returns; positive fuel at least the active-list length is never
exhausted. -/
theorem clipLoop_total (points : List P2) :
    ∀ fuel indices tris, indices.length ≤ fuel → 1 ≤ fuel →
      clipLoop points fuel indices tris ≠ none := by
  intro fuel
  induction fuel with
  | zero => intro indices tris _ h1; omega
  | succ f ih =>
      intro indices tris hlen _
      simp only [clipLoop]
      by_cases h3 : 3 < indices.length
      · rw [if_pos h3]
        cases hfe : findEar points indices with
        | none => simp
        | some i =>
            have hi : i < indices.length :=
              List.mem_range.mp (List.mem_of_find?_eq_some hfe)
            have hlen' : (indices.eraseIdx i).length = indices.length - 1 := by
              rw [List.length_eraseIdx]; simp [hi]
            exact ih _ _ (by omega) (by omega)
      · rw [if_neg h3]; simp

/-- The only error the clipping loop itself can produce is the no-valid-ear
message. -/
theorem clipLoop_error_msg (points : List P2) :
    ∀ fuel indices tris e,
      clipLoop points fuel indices tris = some (Except.error e) →
      e = "Unable to find valid ear for triangulation" := by
  intro fuel
  induction fuel with
  | zero => intro indices tris e h; exact absurd h (by simp [clipLoop])
  | succ f ih =>
      intro indices tris e h
      simp only [clipLoop] at h
      by_cases h3 : 3 < indices.length
      · rw [if_pos h3] at h
        cases hfe : findEar points indices with
        | none =>
            rw [hfe] at h
            exact (Except.error.inj (Option.some.inj h)).symm
        | some i =>
            rw [hfe] at h
            exact ih _ _ _ h
      · rw [if_neg h3] at h
        exact absurd h (by simp)

/-- **C9.** The ear-clipping triangulator always terminates: the explicit fuel
standing for the unbounded `while` loop is never exhausted when it is positive
and at least the active index-list length (each pass removes one vertex via
`eraseIdx` or returns the no-ear error), and on every finite input list
`earclip_triangulate` returns a genuine result — never the fuel-exhaustion
marker. -/
theorem earclip_terminates (points pts : List P2) (fuel : Nat)
    (indices : List Nat) (tris : List (Nat × Nat × Nat))
    (hfuel : indices.length ≤ fuel) (hpos : 1 ≤ fuel) :
    clipLoop points fuel indices tris ≠ none ∧
    earclip_triangulate pts ≠ Except.error "fuel exhausted" := by
  refine ⟨clipLoop_total points fuel indices tris hfuel hpos, ?_⟩
  unfold earclip_triangulate
  by_cases hlt : pts.length < 3
  · rw [if_pos hlt]
    intro h
    exact absurd (Except.error.inj h) (by decide)
  · rw [if_neg hlt]
    by_cases heq : pts.length = 3
    · rw [if_pos heq]
      exact fun h => Except.noConfusion h
    · rw [if_neg heq]
      dsimp only
      set pp := if 0 < compute_signed_area pts then pts.reverse else pts with hpp
      have hpl : pp.length = pts.length := by
        rw [hpp]; split <;> simp
      have hne : clipLoop pp pp.length (List.range pp.length) [] ≠ none :=
        clipLoop_total pp pp.length (List.range pp.length) []
          (by simp) (by omega)
      cases hc : clipLoop pp pp.length (List.range pp.length) [] with
      | none => exact absurd hc hne
      | some r =>
          cases r with
          | error e =>
              have he := clipLoop_error_msg pp _ _ _ _ hc
              intro h
              rw [he] at h
              exact absurd (Except.error.inj h) (by decide)
          | ok ts =>
              exact fun h => Except.noConfusion h

/-- Witness for C9 at a concrete square with exactly adequate fuel. -/
theorem earclip_terminates_witness :
    clipLoop [((0 : ℚ), (0 : ℚ)), (1, 0), (1, 1), (0, 1)] 4 [0, 1, 2, 3] [] ≠ none ∧
    earclip_triangulate [((0 : ℚ), (0 : ℚ)), (1, 0), (1, 1), (0, 1)] ≠
      Except.error "fuel exhausted" :=
  earclip_terminates [((0 : ℚ), (0 : ℚ)), (1, 0), (1, 1), (0, 1)]
    [((0 : ℚ), (0 : ℚ)), (1, 0), (1, 1), (0, 1)] 4 [0, 1, 2, 3] []
    (by decide) (by decide)


/-! ## C7: `face_normal` on degenerate geometry -/

/-- `Mesh::vertex_position`: the stored position of a vertex, if present. -/
def Mesh.vertex_position (m : Mesh) (vertex_key : Nat) : Option Point :=
  (m.vertex.find? vertex_key).map fun v => ⟨v.x, v.y, v.z⟩

/-- `Mesh::face_normal`: cross product of the first two edges, normalized in
place.  The `bool` returned by `unitize` is discarded by the code, so a
degenerate (near-zero) cross product yields `some` of the unchanged zero-length
vector, not `none`.  `sq` abstracts the square root of the success branch. -/
def Mesh.face_normal (sq : ℚ → ℚ) (m : Mesh) (face_key : Nat) : Option Vector :=
  match m.face.find? face_key with
  | none => none
  | some vertices =>
      if vertices.length < 3 then none
      else
        match m.vertex_position (vertices.getD 0 0),
            m.vertex_position (vertices.getD 1 0),
            m.vertex_position (vertices.getD 2 0) with
        | some p0, some p1, some p2 =>
            let edge1 : Vector := ⟨p1.x - p0.x, p1.y - p0.y, p1.z - p0.z⟩
            let edge2 : Vector := ⟨p2.x - p0.x, p2.y - p0.y, p2.z - p0.z⟩
            let normal := edge1.cross edge2
            some (Vector.unitize sq normal).2
        | _, _, _ => none

/-- A mesh holding one collinear (geometrically degenerate) triangle. -/
def degenMesh : Mesh :=
  let r0 := Mesh.new.add_vertex ⟨0, 0, 0⟩ none
  let r1 := r0.2.add_vertex ⟨1, 0, 0⟩ none
  let r2 := r1.2.add_vertex ⟨2, 0, 0⟩ none
  (r2.2.add_face [r0.1, r1.1, r2.1] (some 5)).2

/-- Counterexample to C7 as stated: a face over three collinear points has a
zero cross product of its first two edges, yet `face_normal` returns
`some (0, 0, 0)` — not `None` (the square root never enters the degenerate
branch, so it is instantiated with the identity here). -/
theorem face_normal_degenerate_not_none :
    (Vector.cross ⟨1 - 0, 0 - 0, 0 - 0⟩ ⟨2 - 0, 0 - 0, 0 - 0⟩ :
      Vector).length_squared = 0 ∧
    Mesh.face_normal (fun q => q) degenMesh 5 = some ⟨0, 0, 0⟩ ∧
    Mesh.face_normal (fun q => q) degenMesh 5 ≠ none := by
  refine ⟨by with_unfolding_all decide, ?_, ?_⟩
  · with_unfolding_all rfl
  · intro h
    rw [show Mesh.face_normal (fun q => q) degenMesh 5 = some ⟨0, 0, 0⟩ from
      by with_unfolding_all rfl] at h
    exact Option.noConfusion h

/-- **C7 (amended).** For every face whose first three vertex positions exist
and produce a degenerate (below the `1e-10` squared-length threshold) cross
product of the first two edges, `face_normal` does not crash but also does not
return `None`: it returns `Some` of the raw, un-normalized cross-product vector
(the `bool` result of `unitize` is discarded). -/
theorem face_normal_degenerate_spec (sq : ℚ → ℚ) (m : Mesh) (fk : Nat)
    (vs : List Nat) (p0 p1 p2 : Point)
    (hface : m.face.find? fk = some vs)
    (hlen : ¬ vs.length < 3)
    (h0 : m.vertex_position (vs.getD 0 0) = some p0)
    (h1 : m.vertex_position (vs.getD 1 0) = some p1)
    (h2 : m.vertex_position (vs.getD 2 0) = some p2)
    (hdeg : (Vector.cross ⟨p1.x - p0.x, p1.y - p0.y, p1.z - p0.z⟩
        ⟨p2.x - p0.x, p2.y - p0.y, p2.z - p0.z⟩).length_squared < 1 / 10 ^ 10) :
    m.face_normal sq fk =
      some (Vector.cross ⟨p1.x - p0.x, p1.y - p0.y, p1.z - p0.z⟩
        ⟨p2.x - p0.x, p2.y - p0.y, p2.z - p0.z⟩) := by
  unfold Mesh.face_normal
  rw [hface]
  dsimp only
  rw [if_neg hlen, h0, h1, h2]
  dsimp only
  rw [Vector.unitize, if_pos hdeg]

/-- Witness for C7 at the concrete collinear triangle. -/
theorem face_normal_degenerate_spec_witness :
    Mesh.face_normal (fun q => q) degenMesh 5 =
      some (Vector.cross ⟨1 - 0, 0 - 0, 0 - 0⟩ ⟨2 - 0, 0 - 0, 0 - 0⟩) :=
  face_normal_degenerate_spec (fun q => q) degenMesh 5 [1, 3, 5]
    ⟨0, 0, 0⟩ ⟨1, 0, 0⟩ ⟨2, 0, 0⟩
    (by with_unfolding_all rfl) (by decide)
    (by with_unfolding_all rfl) (by with_unfolding_all rfl)
    (by with_unfolding_all rfl) (by with_unfolding_all decide)


/-! ## C5: ear-clipping a convex polygon -/

/-- Orientation determinant of an ordered point triple (positive = left turn). -/
def orient (a b c : P2) : ℚ :=
  (b.1 - a.1) * (c.2 - a.2) - (c.1 - a.1) * (b.2 - a.2)

/-- Strictly convex position, counter-clockwise: every index-increasing triple
of polygon points makes a strict left turn. -/
def ConvexCCW (pts : List P2) : Prop :=
  ∀ k, k < pts.length → ∀ j, j < k → ∀ i, i < j →
    0 < orient (pts.getD i (0, 0)) (pts.getD j (0, 0)) (pts.getD k (0, 0))

/-- Strictly convex position, clockwise. -/
def ConvexCW (pts : List P2) : Prop :=
  ∀ k, k < pts.length → ∀ j, j < k → ∀ i, i < j →
    orient (pts.getD i (0, 0)) (pts.getD j (0, 0)) (pts.getD k (0, 0)) < 0

instance (pts : List P2) : Decidable (ConvexCCW pts) := by
  unfold ConvexCCW; infer_instance

instance (pts : List P2) : Decidable (ConvexCW pts) := by
  unfold ConvexCW; infer_instance

theorem orient_rotate (a b c : P2) : orient a b c = orient b c a := by
  unfold orient; ring

theorem orient_swap (a b c : P2) : orient a b c = -orient a c b := by
  unfold orient; ring

theorem sign_eq_orient (p a b : P2) : sign p a b = orient a b p := by
  unfold sign orient; ring

theorem cross_eq_orient (a b c : P2) :
    (b.1 - a.1) * (c.2 - b.2) - (b.2 - a.2) * (c.1 - b.1) = orient a b c := by
  unfold orient; ring

theorem chain'_getD_lt (l : List Nat) (hs : List.Chain' (· < ·) l)
    (i j : Nat) (hij : i < j) (hj : j < l.length) : l.getD i 0 < l.getD j 0 := by
  have hp : l.Pairwise (· < ·) := List.chain'_iff_pairwise.mp hs
  rw [List.getD_eq_getElem l 0 (by omega), List.getD_eq_getElem l 0 hj]
  exact List.pairwise_iff_getElem.mp hp i j (by omega) hj hij

theorem getD_mem (l : List Nat) (i : Nat) (hi : i < l.length) : l.getD i 0 ∈ l := by
  rw [List.getD_eq_getElem l 0 hi]
  exact List.getElem_mem hi

theorem pit_false_of (p a b c : P2) (hpos : 0 < sign p a b)
    (hneg : sign p c a < 0) : point_in_triangle p a b c = false := by
  unfold point_in_triangle
  simp only [Bool.not_eq_false', Bool.and_eq_true, Bool.or_eq_true,
    decide_eq_true_eq]
  exact ⟨Or.inr hneg, Or.inl (Or.inl hpos)⟩

theorem is_ear_head (pts : List P2) (hconv : ConvexCCW pts) (l : List Nat)
    (hs : List.Chain' (· < ·) l) (hb : ∀ x ∈ l, x < pts.length)
    (h3 : 3 ≤ l.length) :
    is_ear pts l (l.getD (l.length - 1) 0) (l.getD 0 0) (l.getD 1 0) = true := by
  set n := l.length with hn
  set A := l.getD (n - 1) 0 with hA
  set B := l.getD 0 0 with hB
  set C := l.getD 1 0 with hC
  have hBC : B < C := chain'_getD_lt l hs 0 1 (by omega) (by omega)
  have hCA : C < A := chain'_getD_lt l hs 1 (n - 1) (by omega) (by omega)
  have hAlt : A < pts.length := hb A (getD_mem l (n - 1) (by omega))
  have horient : 0 < orient (pts.getD A (0, 0)) (pts.getD B (0, 0))
      (pts.getD C (0, 0)) := by
    rw [orient_rotate]
    exact hconv A hAlt C hCA B hBC
  unfold is_ear
  dsimp only
  have hcr : ¬ ((pts.getD B (0, 0)).1 - (pts.getD A (0, 0)).1) *
      ((pts.getD C (0, 0)).2 - (pts.getD B (0, 0)).2) -
      ((pts.getD B (0, 0)).2 - (pts.getD A (0, 0)).2) *
      ((pts.getD C (0, 0)).1 - (pts.getD B (0, 0)).1) ≤ 0 := by
    rw [cross_eq_orient]
    exact not_le.mpr horient
  rw [if_neg hcr, List.all_eq_true]
  intro idx hidx
  by_cases hcond : idx ≠ A ∧ idx ≠ B ∧ idx ≠ C
  · obtain ⟨t, ht, hval⟩ := List.mem_iff_getElem.mp hidx
    have hgetD : l.getD t 0 = idx := by
      rw [List.getD_eq_getElem l 0 ht]; exact hval
    have ht0 : t ≠ 0 := by
      intro h; exact hcond.2.1 (by rw [← hgetD, h])
    have ht1 : t ≠ 1 := by
      intro h; exact hcond.2.2 (by rw [← hgetD, h])
    have htn : t ≠ n - 1 := by
      intro h; exact hcond.1 (by rw [← hgetD, h])
    have hBidx : B < idx := by
      have := chain'_getD_lt l hs 0 t (by omega) ht
      rwa [hgetD] at this
    have hCidx : C < idx := by
      have := chain'_getD_lt l hs 1 t (by omega) ht
      rwa [hgetD] at this
    have hidxA : idx < A := by
      have := chain'_getD_lt l hs t (n - 1) (by omega) (by omega)
      rwa [hgetD] at this
    have hd1 : 0 < sign (pts.getD idx (0, 0)) (pts.getD A (0, 0))
        (pts.getD B (0, 0)) := by
      rw [sign_eq_orient, orient_rotate]
      exact hconv A hAlt idx hidxA B hBidx
    have hd3 : sign (pts.getD idx (0, 0)) (pts.getD C (0, 0))
        (pts.getD A (0, 0)) < 0 := by
      rw [sign_eq_orient, orient_swap]
      have := hconv A hAlt idx hidxA C hCidx
      exact neg_lt_zero.mpr this
    rw [if_pos hcond,
      pit_false_of (pts.getD idx (0, 0)) (pts.getD A (0, 0))
        (pts.getD B (0, 0)) (pts.getD C (0, 0)) hd1 hd3]
    rfl
  · rw [if_neg hcond]

theorem earData_zero (l : List Nat) (h2 : 2 ≤ l.length) :
    earData l 0 = (l.getD (l.length - 1) 0, l.getD 0 0, l.getD 1 0) := by
  unfold earData
  rw [if_pos rfl, Nat.mod_eq_of_lt (by omega)]

theorem findEar_head (pts : List P2) (hconv : ConvexCCW pts) (l : List Nat)
    (hs : List.Chain' (· < ·) l) (hb : ∀ x ∈ l, x < pts.length)
    (h3 : 3 ≤ l.length) : findEar pts l = some 0 := by
  unfold findEar
  obtain ⟨m, hm⟩ : ∃ m, l.length = m + 1 := ⟨l.length - 1, by omega⟩
  rw [hm, List.range_succ_eq_map]
  have hp : (fun i => is_ear pts l (earData l i).1 (earData l i).2.1
      (earData l i).2.2) 0 = true := by
    dsimp only
    rw [earData_zero l (by omega)]
    exact is_ear_head pts hconv l hs hb h3
  exact List.find?_cons_of_pos _ hp

/-- Second summand of the telescoped shoelace: the `x·y` cross term. -/
def cross2 (a b : P2) : ℚ := a.1 * b.2 - b.1 * a.2

/-- Fan decomposition of the shoelace sum from the first polygon point. -/
def fanSum (p0 : P2) : P2 → List P2 → ℚ
  | _, [] => 0
  | c, b :: rest => orient p0 c b + fanSum p0 b rest

theorem walkSum_saStep (p0 : P2) : ∀ (l : List P2) (c : P2),
    walkSum saStep p0 c l = (p0.1 * p0.2 - c.1 * c.2) - walkSum cross2 p0 c l := by
  intro l
  induction l with
  | nil => intro c; simp only [walkSum]; unfold saStep cross2; ring
  | cons b rest ih =>
      intro c
      simp only [walkSum]
      rw [ih]
      unfold saStep cross2
      ring

theorem walkSum_cross2 (p0 : P2) : ∀ (l : List P2) (c : P2),
    walkSum cross2 p0 c l = fanSum p0 c l + cross2 c p0 := by
  intro l
  induction l with
  | nil => intro c; simp only [walkSum, fanSum]; ring
  | cons b rest ih =>
      intro c
      simp only [walkSum, fanSum]
      rw [ih]
      unfold cross2 orient
      ring

theorem fanSum_pos_of_drop (pts : List P2) (hconv : ConvexCCW pts) :
    ∀ (l : List P2) (i : Nat) (c : P2), pts.drop i = c :: l → 1 ≤ i →
      0 ≤ fanSum (pts.getD 0 (0, 0)) c l ∧
      (l ≠ [] → 0 < fanSum (pts.getD 0 (0, 0)) c l) := by
  intro l
  induction l with
  | nil =>
      intro i c _ _
      exact ⟨le_refl 0, fun h => absurd rfl h⟩
  | cons b rest ih =>
      intro i c hdrop h1
      have hlen : pts.length = i + rest.length + 2 := by
        have hcl := congrArg List.length hdrop
        rw [List.length_drop] at hcl
        simp only [List.length_cons] at hcl
        omega
      have hi : i < pts.length := by omega
      have hi1 : i + 1 < pts.length := by omega
      have hsplit := List.drop_eq_getElem_cons hi
      rw [hdrop] at hsplit
      injection hsplit with hc hdrop'
      have hsplit2 := List.drop_eq_getElem_cons hi1
      rw [← hdrop'] at hsplit2
      injection hsplit2 with hbn hdrop2
      have hgc : pts.getD i (0, 0) = c := by
        rw [List.getD_eq_getElem pts (0, 0) hi]; exact hc.symm
      have hgb : pts.getD (i + 1) (0, 0) = b := by
        rw [List.getD_eq_getElem pts (0, 0) hi1]; exact hbn.symm
      have horient : 0 < orient (pts.getD 0 (0, 0)) c b := by
        have := hconv (i + 1) hi1 i (Nat.lt_succ_self i) 0 (by omega)
        rwa [hgc, hgb] at this
      have hrest := ih (i + 1) b hdrop'.symm (by omega)
      simp only [fanSum]
      constructor
      · linarith [hrest.1]
      · intro _
        linarith [hrest.1]

theorem orient_self_left (a b : P2) : orient a a b = 0 := by
  unfold orient; ring

theorem csa_neg_of_ccw (pts : List P2) (h3 : 3 ≤ pts.length)
    (hconv : ConvexCCW pts) : compute_signed_area pts < 0 := by
  obtain ⟨p, r0, rest2, rfl⟩ : ∃ p r0 rest2, pts = p :: r0 :: rest2 := by
    match pts with
    | [] => simp at h3
    | [a] => simp at h3
    | a :: b :: t => exact ⟨a, b, t, rfl⟩
  have hne : rest2 ≠ [] := by
    intro h
    rw [h] at h3
    simp at h3
  have hfan : 0 < fanSum p r0 rest2 := by
    have := (fanSum_pos_of_drop (p :: r0 :: rest2) hconv rest2 1 r0 rfl
      (le_refl 1)).2 hne
    exact this
  simp only [compute_signed_area]
  rw [walkSum_saStep, walkSum_cross2]
  simp only [fanSum]
  rw [orient_self_left]
  unfold cross2
  linarith

theorem fanSum_neg_of_drop (pts : List P2) (hconv : ConvexCW pts) :
    ∀ (l : List P2) (i : Nat) (c : P2), pts.drop i = c :: l → 1 ≤ i →
      fanSum (pts.getD 0 (0, 0)) c l ≤ 0 ∧
      (l ≠ [] → fanSum (pts.getD 0 (0, 0)) c l < 0) := by
  intro l
  induction l with
  | nil =>
      intro i c _ _
      exact ⟨le_refl 0, fun h => absurd rfl h⟩
  | cons b rest ih =>
      intro i c hdrop h1
      have hlen : pts.length = i + rest.length + 2 := by
        have hcl := congrArg List.length hdrop
        rw [List.length_drop] at hcl
        simp only [List.length_cons] at hcl
        omega
      have hi : i < pts.length := by omega
      have hi1 : i + 1 < pts.length := by omega
      have hsplit := List.drop_eq_getElem_cons hi
      rw [hdrop] at hsplit
      injection hsplit with hc hdrop'
      have hsplit2 := List.drop_eq_getElem_cons hi1
      rw [← hdrop'] at hsplit2
      injection hsplit2 with hbn hdrop2
      have hgc : pts.getD i (0, 0) = c := by
        rw [List.getD_eq_getElem pts (0, 0) hi]; exact hc.symm
      have hgb : pts.getD (i + 1) (0, 0) = b := by
        rw [List.getD_eq_getElem pts (0, 0) hi1]; exact hbn.symm
      have horient : orient (pts.getD 0 (0, 0)) c b < 0 := by
        have := hconv (i + 1) hi1 i (Nat.lt_succ_self i) 0 (by omega)
        rwa [hgc, hgb] at this
      have hrest := ih (i + 1) b hdrop'.symm (by omega)
      simp only [fanSum]
      constructor
      · linarith [hrest.1]
      · intro _
        linarith [hrest.1]

theorem csa_pos_of_cw (pts : List P2) (h3 : 3 ≤ pts.length)
    (hconv : ConvexCW pts) : 0 < compute_signed_area pts := by
  obtain ⟨p, r0, rest2, rfl⟩ : ∃ p r0 rest2, pts = p :: r0 :: rest2 := by
    match pts with
    | [] => simp at h3
    | [a] => simp at h3
    | a :: b :: t => exact ⟨a, b, t, rfl⟩
  have hne : rest2 ≠ [] := by
    intro h
    rw [h] at h3
    simp at h3
  have hfan : fanSum p r0 rest2 < 0 := by
    exact (fanSum_neg_of_drop (p :: r0 :: rest2) hconv rest2 1 r0 rfl
      (le_refl 1)).2 hne
  simp only [compute_signed_area]
  rw [walkSum_saStep, walkSum_cross2]
  simp only [fanSum]
  rw [orient_self_left]
  unfold cross2
  linarith

theorem convexCCW_reverse_of_cw (pts : List P2) (h : ConvexCW pts) :
    ConvexCCW pts.reverse := by
  intro k hk j hj i hi
  rw [List.length_reverse] at hk
  have hik : i < pts.length := by omega
  have hjk : j < pts.length := by omega
  have hkk : k < pts.length := hk
  have hgi : pts.reverse.getD i (0, 0) = pts.getD (pts.length - 1 - i) (0, 0) := by
    rw [List.getD_eq_getElem pts.reverse (0, 0) (by rw [List.length_reverse]; omega),
      List.getD_eq_getElem pts (0, 0) (by omega)]
    exact List.getElem_reverse _
  have hgj : pts.reverse.getD j (0, 0) = pts.getD (pts.length - 1 - j) (0, 0) := by
    rw [List.getD_eq_getElem pts.reverse (0, 0) (by rw [List.length_reverse]; omega),
      List.getD_eq_getElem pts (0, 0) (by omega)]
    exact List.getElem_reverse _
  have hgk : pts.reverse.getD k (0, 0) = pts.getD (pts.length - 1 - k) (0, 0) := by
    rw [List.getD_eq_getElem pts.reverse (0, 0) (by rw [List.length_reverse]; omega),
      List.getD_eq_getElem pts (0, 0) (by omega)]
    exact List.getElem_reverse _
  rw [hgi, hgj, hgk]
  have hord := h (pts.length - 1 - i) (by omega) (pts.length - 1 - j) (by omega)
    (pts.length - 1 - k) (by omega)
  have hsw : orient (pts.getD (pts.length - 1 - i) (0, 0))
      (pts.getD (pts.length - 1 - j) (0, 0))
      (pts.getD (pts.length - 1 - k) (0, 0)) =
      -orient (pts.getD (pts.length - 1 - k) (0, 0))
      (pts.getD (pts.length - 1 - j) (0, 0))
      (pts.getD (pts.length - 1 - i) (0, 0)) := by
    unfold orient; ring
  rw [hsw]
  linarith

/-- A well-formed output triangle: three pairwise-distinct indices, all
referring to the original input point list of length `n`. -/
def triOK (n : Nat) (t : Nat × Nat × Nat) : Prop :=
  t.1 ≠ t.2.1 ∧ t.1 ≠ t.2.2 ∧ t.2.1 ≠ t.2.2 ∧ t.1 < n ∧ t.2.1 < n ∧ t.2.2 < n

theorem clipLoop_convex (pts : List P2) (hconv : ConvexCCW pts) :
    ∀ (fuel : Nat) (l : List Nat) (tris : List (Nat × Nat × Nat)),
      List.Chain' (· < ·) l → (∀ x ∈ l, x < pts.length) →
      3 ≤ l.length → l.length ≤ fuel →
      ∃ res, clipLoop pts fuel l tris = some (Except.ok res) ∧
        res.length = tris.length + (l.length - 2) ∧
        ∀ t ∈ res, t ∈ tris ∨ triOK pts.length t := by
  intro fuel
  induction fuel with
  | zero => intro l tris _ _ h3 hf; omega
  | succ f ih =>
      intro l tris hs hb h3 hf
      simp only [clipLoop]
      by_cases h4 : 3 < l.length
      · rw [if_pos h4, findEar_head pts hconv l hs hb h3]
        obtain ⟨x, xs, rfl⟩ : ∃ x xs, l = x :: xs := by
          match l with
          | [] => simp at h3
          | a :: t => exact ⟨a, t, rfl⟩
        have hxs : (x :: xs).eraseIdx 0 = xs := rfl
        have hlen : xs.length = (x :: xs).length - 1 := by simp
        obtain ⟨res, hres, hrlen, hrmem⟩ :=
          ih xs (tris ++ [earData (x :: xs) 0])
            (List.Chain'.tail hs)
            (fun y hy => hb y (List.mem_cons_of_mem _ hy))
            (by simp only [List.length_cons] at h4 ⊢; omega)
            (by simp only [List.length_cons] at hf ⊢; omega)
        refine ⟨res, hres, ?_, ?_⟩
        · rw [hrlen]
          simp only [List.length_append, List.length_cons, List.length_nil]
          omega
        · intro t ht
          rcases hrmem t ht with hmem | hok
          · rcases List.mem_append.mp hmem with hmem2 | hmem2
            · exact Or.inl hmem2
            · right
              have hte : t = earData (x :: xs) 0 := by
                simpa using hmem2
              rw [hte, earData_zero (x :: xs) (by simp only [List.length_cons]; omega)]
              unfold triOK
              dsimp only
              set n := (x :: xs).length with hn
              have hBC : (x :: xs).getD 0 0 < (x :: xs).getD 1 0 :=
                chain'_getD_lt _ hs 0 1 (by omega)
                  (by simp only [List.length_cons] at h4 ⊢; omega)
              have hCA : (x :: xs).getD 1 0 < (x :: xs).getD (n - 1) 0 :=
                chain'_getD_lt _ hs 1 (n - 1)
                  (by simp only [hn, List.length_cons] at h4 ⊢; omega)
                  (by simp only [hn, List.length_cons] at h4 ⊢; omega)
              refine ⟨by omega, by omega, by omega, ?_, ?_, ?_⟩
              · exact hb _ (getD_mem _ (n - 1)
                  (by simp only [hn, List.length_cons] at h4 ⊢; omega))
              · exact hb _ (getD_mem _ 0 (by simp only [List.length_cons]; omega))
              · exact hb _ (getD_mem _ 1
                  (by simp only [List.length_cons] at h4 ⊢; omega))
          · exact Or.inr hok
      · rw [if_neg h4]
        have heq : l.length = 3 := by omega
        rw [if_pos heq]
        refine ⟨tris ++ [(l.getD 0 0, l.getD 1 0, l.getD 2 0)], rfl, ?_, ?_⟩
        · simp only [List.length_append, List.length_cons, List.length_nil]
          omega
        · intro t ht
          rcases List.mem_append.mp ht with hmem | hmem
          · exact Or.inl hmem
          · right
            have hte : t = (l.getD 0 0, l.getD 1 0, l.getD 2 0) := by
              simpa using hmem
            rw [hte]
            unfold triOK
            dsimp only
            have h01 : l.getD 0 0 < l.getD 1 0 :=
              chain'_getD_lt l hs 0 1 (by omega) (by omega)
            have h12 : l.getD 1 0 < l.getD 2 0 :=
              chain'_getD_lt l hs 1 2 (by omega) (by omega)
            refine ⟨by omega, by omega, by omega, ?_, ?_, ?_⟩
            · exact hb _ (getD_mem l 0 (by omega))
            · exact hb _ (getD_mem l 1 (by omega))
            · exact hb _ (getD_mem l 2 (by omega))

/-- **C5.** For every polygon of `n ≥ 3` vertices in strictly convex position,
in either winding order, ear-clipping succeeds: it returns `Ok` with exactly
`n - 2` triangles, each of whose three indices are pairwise distinct and refer
to the original input point order (all below `n`). -/
theorem earclip_convex (pts : List P2) (h3 : 3 ≤ pts.length)
    (hconv : ConvexCCW pts ∨ ConvexCW pts) :
    ∃ tris, earclip_triangulate pts = Except.ok tris ∧
      tris.length = pts.length - 2 ∧ ∀ t ∈ tris, triOK pts.length t := by
  unfold earclip_triangulate
  rw [if_neg (by omega)]
  by_cases heq : pts.length = 3
  · rw [if_pos heq]
    refine ⟨[(0, 1, 2)], rfl, by rw [heq]; rfl, ?_⟩
    intro t ht
    simp only [List.mem_singleton] at ht
    rw [ht]
    unfold triOK
    dsimp only
    exact ⟨by decide, by decide, by decide, by omega, by omega, by omega⟩
  · have h4 : 4 ≤ pts.length := by omega
    rw [if_neg heq]
    rcases hconv with hccw | hcw
    · have hneg : compute_signed_area pts < 0 := csa_neg_of_ccw pts h3 hccw
      have hwr : ¬ (0 < compute_signed_area pts) := not_lt.mpr (le_of_lt hneg)
      dsimp only
      simp only [if_neg hwr]
      obtain ⟨res, hres, hrlen, hrmem⟩ :=
        clipLoop_convex pts hccw pts.length (List.range pts.length) []
          (List.chain'_iff_pairwise.mpr (List.pairwise_lt_range pts.length))
          (fun x hx => List.mem_range.mp hx)
          (by simp only [List.length_range]; omega)
          (by simp only [List.length_range]; exact le_refl _)
      rw [hres]
      refine ⟨res, rfl, ?_, ?_⟩
      · rw [hrlen]
        simp only [List.length_nil, List.length_range]
        omega
      · intro t ht
        rcases hrmem t ht with h | h
        · simp at h
        · exact h
    · have hpos : 0 < compute_signed_area pts := csa_pos_of_cw pts h3 hcw
      dsimp only
      simp only [if_pos hpos]
      have hrc : ConvexCCW pts.reverse := convexCCW_reverse_of_cw pts hcw
      obtain ⟨res, hres, hrlen, hrmem⟩ :=
        clipLoop_convex pts.reverse hrc pts.reverse.length
          (List.range pts.reverse.length) []
          (List.chain'_iff_pairwise.mpr (List.pairwise_lt_range _))
          (fun x hx => List.mem_range.mp hx)
          (by simp only [List.length_range, List.length_reverse]; omega)
          (by simp only [List.length_range]; exact le_refl _)
      rw [hres]
      refine ⟨res.map (fun t => (pts.length - 1 - t.1, pts.length - 1 - t.2.1,
        pts.length - 1 - t.2.2)), rfl, ?_, ?_⟩
      · rw [List.length_map, hrlen]
        simp only [List.length_nil, List.length_range, List.length_reverse]
        omega
      · intro t ht
        rw [List.mem_map] at ht
        obtain ⟨t0, ht0, rfl⟩ := ht
        rcases hrmem t0 ht0 with h | h
        · simp at h
        · unfold triOK at h
          obtain ⟨hne1, hne2, hne3, hb1, hb2, hb3⟩ := h
          rw [List.length_reverse] at hb1 hb2 hb3
          unfold triOK
          dsimp only
          exact ⟨by omega, by omega, by omega, by omega, by omega, by omega⟩

/-- Witness for C5 at a concrete counter-clockwise unit square. -/
theorem earclip_convex_witness :
    3 ≤ ([((0 : ℚ), (0 : ℚ)), (1, 0), (1, 1), (0, 1)] : List P2).length ∧
    ∃ tris,
      earclip_triangulate [((0 : ℚ), (0 : ℚ)), (1, 0), (1, 1), (0, 1)] =
        Except.ok tris ∧
      tris.length =
        ([((0 : ℚ), (0 : ℚ)), (1, 0), (1, 1), (0, 1)] : List P2).length - 2 ∧
      ∀ t ∈ tris,
        triOK ([((0 : ℚ), (0 : ℚ)), (1, 0), (1, 1), (0, 1)] : List P2).length t :=
  ⟨by decide, earclip_convex [((0 : ℚ), (0 : ℚ)), (1, 0), (1, 1), (0, 1)]
    (by decide) (Or.inl (by with_unfolding_all decide))⟩

end OpenModel
